import Mathlib

/-!
A shallow embedding of the `Unordered_Map` container of `src/Unordered_Map.h`:
a separate-chaining hash table whose entries are threaded on a single
circular, sentinel-terminated traversal list, with a per-bucket "anchor"
pointer (`buckets[i]`) that stores the node immediately preceding the
bucket's first entry in traversal order.

Modelling choices:
* Heap nodes are modelled by value, with an allocator-assigned identity
  `Node.id` (the allocator is modelled by the counter `UMap.nextId`).
* The circular list `Elist -> n1 -> ... -> nk -> Elist` is modelled as the
  Lean list `[n1, ..., nk]`; the sentinel `Elist` carries no payload, so it
  is represented only through the pointer value `Ptr.elist`.
* A C++ `Node*` is a `Ptr` (`Ptr.elist` for the sentinel, `Ptr.node id` for
  an entry node); a possibly-null `Node*` in the bucket array is an
  `Option Ptr` (`none` models `nullptr`).
* A thrown exception is `Res.exn`; its payload records the C++ exception
  type and message.  A null/out-of-bounds dereference (undefined behaviour)
  is `Res.ub`.  An exception escaping a `noexcept` function (which calls
  `std::terminate`) is `Res.terminated`.
* `std::hash` is a parameter `hasher : K -> Nat`; `double` is modelled by
  `Rat` (exact for the values appearing in the program's comparisons).
-/

set_option linter.unusedSectionVars false
set_option linter.unusedVariables false

namespace UM

/-- A non-null `Node*`: either the sentinel `Elist` or the entry node with
the given allocation identity. -/
inductive Ptr where
  | elist : Ptr
  | node (id : Nat) : Ptr
deriving DecidableEq, Repr

/-- The message of a thrown exception, one constructor per `throw` site of
`src/Unordered_Map.h`. -/
inductive ExnMsg where
  | keyRepeat            -- "Key repeat" (insert, line 384)
  | noSuchKey            -- "No such key" (erase, line 426)
  | mapOutOfRange        -- "map out of range" (at, lines 642 and 656)
  | impossibleHashZero   -- "Impossible to find hash for zero-sized map" (__hash, line 269)
  | newSizeLess          -- reserve's message (line 459)
  | mlfNonpos            -- max_load_factor's message (line 487)
deriving DecidableEq, Repr

/-- A thrown C++ exception: its dynamic type and message. -/
inductive CppExn where
  | invalidArgument (msg : ExnMsg)
  | outOfRange (msg : ExnMsg)
deriving DecidableEq, Repr

/-- Outcome of running a piece of the C++ code. -/
inductive Res (α : Type) where
  | ok (a : α) : Res α
  | exn (e : CppExn) : Res α
  | ub : Res α           -- undefined behaviour (null or out-of-bounds dereference)
  | terminated : Res α   -- std::terminate: an exception escaped a noexcept function
deriving DecidableEq, Repr

/-- The `Node` struct (without the intrusive `next_node`, which is encoded by
list order), plus the allocation identity `id` standing for the node's
address.  `cached` is the node's bucket index, `key`/`val` are the payload
`std::pair`. -/
structure Node (K V : Type) where
  id : Nat
  key : K
  val : V
  cached : Nat
deriving DecidableEq, Repr

/-- The `Unordered_Map` object: `chain` is the traversal list read off from
`Elist->next_node`, `buckets` the anchor array, `sz` the field `_size`,
`bucketsCount` the field `buckets_count`, `mlf` the field `_max_load_factor`,
and `nextId` models the allocator (fresh addresses). -/
structure UMap (K V : Type) where
  chain : List (Node K V)
  buckets : List (Option Ptr)
  sz : Nat
  bucketsCount : Nat
  mlf : Rat
  nextId : Nat
deriving DecidableEq, Repr

variable {K V : Type} [DecidableEq K] [DecidableEq V]

/-- The allocation identities of a chain. -/
def ids (l : List (Node K V)) : List Nat := l.map (·.id)

/-- The suffix of the traversal list strictly after the node with identity
`j` (the nodes reached from `node_j->next_node`). -/
def dropAfterId : List (Node K V) → Nat → List (Node K V)
  | [], _ => []
  | n :: rest, j => if n.id = j then rest else dropAfterId rest j

/-- The nodes reached by following `p->next_node` repeatedly until `Elist`. -/
def suffixAfter (chain : List (Node K V)) : Ptr → List (Node K V)
  | .elist => chain
  | .node j => dropAfterId chain j

/-- Splice `nd` right after the node with identity `j`
(`nd->next = node_j->next; node_j->next = nd`). -/
def insertAfterId : List (Node K V) → Nat → Node K V → List (Node K V)
  | [], _, _ => []
  | n :: rest, j, nd => if n.id = j then n :: nd :: rest else n :: insertAfterId rest j nd

/-- Splice `nd` right after the node `p` points to
(`nd->next = p->next; p->next = nd`). -/
def insertAfterPtr (chain : List (Node K V)) (p : Ptr) (nd : Node K V) : List (Node K V) :=
  match p with
  | .elist => nd :: chain
  | .node j => insertAfterId chain j nd

/-- Unlink the node with identity `j` (`before->next = node_j->next`). -/
def removeId : List (Node K V) → Nat → List (Node K V)
  | [], _ => []
  | n :: rest, j => if n.id = j then rest else n :: removeId rest j

/-- The `cached` field read through a pointer with identity `j`. -/
def cachedOf (chain : List (Node K V)) (j : Nat) : Option Nat :=
  (chain.find? (fun n => n.id == j)).map (·.cached)

/-- The loop of `__find_in_bucket` (lines 276-283): walk while the node is
not `Elist` and its cached index is `buck`, looking for `key`. -/
def runContains : List (Node K V) → Nat → K → Bool
  | [], _, _ => false
  | n :: rest, buck, key =>
    if n.cached = buck then (if n.key = key then true else runContains rest buck key)
    else false

/-- The loop of `__find` (lines 289-296): same walk, returning the node found
or `Elist`. -/
def runFindPtr : List (Node K V) → Nat → K → Ptr
  | [], _, _ => .elist
  | n :: rest, buck, key =>
    if n.cached = buck then (if n.key = key then .node n.id else runFindPtr rest buck key)
    else .elist

/-- `__hash` (lines 267-272): bucket index of a key, or `std::invalid_argument`
when the bucket count is zero. -/
def hashIdx (hasher : K → Nat) (m : UMap K V) (key : K) : Except CppExn Nat :=
  if m.bucketsCount = 0 then .error (.invalidArgument .impossibleHashZero)
  else .ok (hasher key % m.bucketsCount)

/-- `__find_in_bucket` (lines 274-284). -/
def findInBucket (m : UMap K V) (buck : Nat) (key : K) : Bool :=
  match m.buckets.getD buck none with
  | none => false
  | some p => runContains (suffixAfter m.chain p) buck key

/-- `__insert_in_empty_bucket` (lines 299-306): the new node becomes the
traversal head, the sentinel becomes this bucket's anchor, and the previous
head's bucket (if any) gets the new node as anchor. -/
def insertInEmptyBucket (chain : List (Node K V)) (bks : List (Option Ptr))
    (buck : Nat) (nd : Node K V) : List (Node K V) × List (Option Ptr) :=
  let bks1 := bks.set buck (some Ptr.elist)
  match chain with
  | [] => (nd :: chain, bks1)
  | h :: _ => (nd :: chain, bks1.set h.cached (some (Ptr.node nd.id)))

/-- `__insert_in_nonempty_bucket` (lines 308-311): splice right after the
bucket's anchor. -/
def insertInNonemptyBucket (chain : List (Node K V)) (p : Ptr) (nd : Node K V) :
    List (Node K V) :=
  insertAfterPtr chain p nd

/-- The dispatch `buckets[buck] == nullptr ? __insert_in_empty_bucket :
__insert_in_nonempty_bucket` used by `insert` (lines 387-388) and inlined by
`__rehash` (lines 328-340). -/
def spliceInsert (chain : List (Node K V)) (bks : List (Option Ptr))
    (buck : Nat) (nd : Node K V) : List (Node K V) × List (Option Ptr) :=
  match bks.getD buck none with
  | none => insertInEmptyBucket chain bks buck nd
  | some p => (insertInNonemptyBucket chain p nd, bks)

/-- `__rehash` (lines 313-345): detach the traversal list, then re-insert
each node in traversal order under the new bucket count, recomputing its
cached index; nodes are re-linked, never reallocated. -/
def rehash (hasher : K → Nat) (m : UMap K V) (n : Nat) : UMap K V :=
  let cb := m.chain.foldl
    (fun acc node =>
      let buck := hasher node.key % n
      spliceInsert acc.1 acc.2 buck { node with cached := buck })
    ([], List.replicate n none)
  { m with chain := cb.1, buckets := cb.2, bucketsCount := n }

/-- `insert` (lines 381-393): duplicate check, node allocation, splice,
size bump, and the automatic doubling rehash when
`_size / buckets_count >= _max_load_factor` (integer division compared to a
double).  Returns the new map and the identity the returned iterator points
to. -/
def insert (hasher : K → Nat) (m : UMap K V) (key : K) (val : V) :
    Res (UMap K V × Nat) :=
  match hashIdx hasher m key with
  | .error e => .exn e
  | .ok buck =>
    if findInBucket m buck key then .exn (.invalidArgument .keyRepeat)
    else
      let nd : Node K V := ⟨m.nextId, key, val, buck⟩
      let cb := spliceInsert m.chain m.buckets buck nd
      let m1 : UMap K V :=
        { m with chain := cb.1, buckets := cb.2, sz := m.sz + 1, nextId := m.nextId + 1 }
      if ((m1.sz / m1.bucketsCount : Nat) : Rat) ≥ m1.mlf then
        .ok (rehash hasher m1 (m1.bucketsCount * 2), nd.id)
      else .ok (m1, nd.id)

/-- The loop of `erase` (lines 405-425), carrying the `before` pointer.
On success returns `before`, the erased node's identity, and its successor
(`none` standing for `Elist`). -/
def eraseScan (buck : Nat) (key : K) :
    Ptr → List (Node K V) → Option (Ptr × Nat × Option (Node K V))
  | _, [] => none
  | bef, n :: rest =>
    if n.cached = buck then
      if n.key = key then some (bef, n.id, rest.head?)
      else eraseScan buck key (.node n.id) rest
    else none

/-- The test `before == Elist || before->cached != buck` (lines 411 and 416). -/
def notInBuck (chain : List (Node K V)) (buck : Nat) : Ptr → Bool
  | .elist => true
  | .node j => decide (¬ cachedOf chain j = some buck)

/-- `erase` (lines 403-427).  Note that when the key's bucket is empty the
source dereferences the null anchor (`buckets[buck]->next_node`), which is
undefined behaviour, modelled by `Res.ub`. -/
def erase (hasher : K → Nat) (m : UMap K V) (key : K) : Res (UMap K V) :=
  match hashIdx hasher m key with
  | .error e => .exn e
  | .ok buck =>
    match m.buckets.getD buck none with
    | none => .ub
    | some p =>
      match eraseScan buck key p (suffixAfter m.chain p) with
      | none => .exn (.outOfRange .noSuchKey)
      | some (bef, tid, sOpt) =>
        let chain' := removeId m.chain tid
        let bks' :=
          match sOpt with
          | none =>
            if notInBuck m.chain buck bef then m.buckets.set buck none else m.buckets
          | some s =>
            if s.cached ≠ buck then
              let b1 := m.buckets.set s.cached (some bef)
              if notInBuck m.chain buck bef then b1.set buck none else b1
            else m.buckets
        .ok { m with chain := chain', buckets := bks', sz := m.sz - 1 }

/-- `clear` (lines 435-447): delete every node, null out the anchor of each
deleted node's bucket, keep the bucket array. -/
def clear (m : UMap K V) : UMap K V :=
  { m with
    buckets := m.chain.foldl (fun b n => b.set n.cached none) m.buckets,
    chain := ([] : List (Node K V)),
    sz := 0 }

/-- `reserve` (lines 458-461). -/
def reserve (hasher : K → Nat) (m : UMap K V) (n : Nat) : Res (UMap K V) :=
  if n < m.bucketsCount then .exn (.invalidArgument .newSizeLess)
  else .ok (rehash hasher m n)

/-- `max_load_factor(double f)` (lines 486-489). -/
def setMaxLoadFactor (m : UMap K V) (f : Rat) : Res (UMap K V) :=
  if f ≤ 0 then .exn (.invalidArgument .mlfNonpos) else .ok { m with mlf := f }

/-- The constructor `Unordered_Map(size_t num_of_buckets = 10)`
(lines 119-125). -/
def mkUMap (n : Nat) : UMap K V :=
  ⟨[], List.replicate n none, 0, n, 1, 0⟩

/-- `__find` (lines 286-297).  It is declared `noexcept` but calls the
throwing `__hash`, so on a zero-bucket map it terminates the process. -/
def findNode (hasher : K → Nat) (m : UMap K V) (key : K) : Res Ptr :=
  match hashIdx hasher m key with
  | .error _ => .terminated
  | .ok buck =>
    match m.buckets.getD buck none with
    | none => .ok .elist
    | some p => .ok (runFindPtr (suffixAfter m.chain p) buck key)

/-- The public `find` (lines 596-599): wraps `__find` in an iterator. -/
def find (hasher : K → Nat) (m : UMap K V) (key : K) : Res Ptr :=
  findNode hasher m key

/-- `contains` (lines 584-587): itself `noexcept`, so the zero-bucket
exception from `__hash` terminates the process. -/
def contains (hasher : K → Nat) (m : UMap K V) (key : K) : Res Bool :=
  match hashIdx hasher m key with
  | .error _ => .terminated
  | .ok buck => .ok (findInBucket m buck key)

/-- `at` (lines 640-644). -/
def atMap (hasher : K → Nat) (m : UMap K V) (key : K) : Res V :=
  match findNode hasher m key with
  | .ok .elist => .exn (.outOfRange .mapOutOfRange)
  | .ok (.node j) =>
    match m.chain.find? (fun n => n.id == j) with
    | some n => .ok n.val
    | none => .ub
  | .exn e => .exn e
  | .ub => .ub
  | .terminated => .terminated

/-- `operator[]` (lines 623-630): find, and insert a default-constructed
value when absent. -/
def opIndex [Inhabited V] (hasher : K → Nat) (m : UMap K V) (key : K) :
    Res (UMap K V × V) :=
  match find hasher m key with
  | .ok .elist =>
    (match insert hasher m key default with
     | .ok (m', j) =>
       (match m'.chain.find? (fun n => n.id == j) with
        | some n => .ok (m', n.val)
        | none => .ub)
     | .exn e => .exn e
     | .ub => .ub
     | .terminated => .terminated)
  | .ok (.node j) =>
    (match m.chain.find? (fun n => n.id == j) with
     | some n => .ok (m, n.val)
     | none => .ub)
  | .exn e => .exn e
  | .ub => .ub
  | .terminated => .terminated

/-- The inner lookup loop of `operator==` (lines 550-558) runs over the other
map's bucket run; it is `runContains`.  This is the outer loop (lines
546-561); indexing `other.buckets` out of range or dereferencing a null
anchor (line 550) is undefined behaviour. -/
def eqLoop (b : UMap K V) : List (Node K V) → Res Bool
  | [] => .ok true
  | th :: rest =>
    match b.buckets.get? th.cached with
    | none => .ub
    | some none => .ub
    | some (some p) =>
      if runContains (suffixAfter b.chain p) th.cached th.key then eqLoop b rest
      else .ok false

/-- `operator==` (lines 543-563): size check, then for each entry of `this`
look for its key in `other`'s bucket run at the cached position; values are
never compared. -/
def beqMap (a b : UMap K V) : Res Bool :=
  if a.sz ≠ b.sz then .ok false else eqLoop b a.chain

/-- The key list, in traversal order. -/
def keys (m : UMap K V) : List K := m.chain.map (·.key)

/-- The key-value pairs, in traversal order. -/
def entries (m : UMap K V) : List (K × V) := m.chain.map (fun n => (n.key, n.val))

/-- Dereference an iterator (`operator*`). -/
def derefIter (m : UMap K V) : Ptr → Option (K × V)
  | .elist => none
  | .node j => (m.chain.find? (fun n => n.id == j)).map (fun n => (n.key, n.val))

/-- `begin()` (lines 231-233): an iterator on `Elist->next_node`. -/
def beginPtr (m : UMap K V) : Ptr :=
  match m.chain with
  | [] => Ptr.elist
  | n :: _ => Ptr.node n.id

/-- `end()` (lines 240-242): an iterator on `Elist`. -/
def endPtr (_ : UMap K V) : Ptr := Ptr.elist

/-- The pointer `p` designates the node immediately preceding the part of the
traversal list that comes after `l`: the last node of `l`, or the sentinel
when `l` is empty. -/
def AnchorAt : Ptr → List (Node K V) → Prop
  | .elist, l => l = []
  | .node j, l => ∃ a, l.getLast? = some a ∧ a.id = j

/-- The anchor invariant for one bucket `i`: a null anchor means no entry is
cached for `i`; a non-null anchor is the immediate predecessor of bucket
`i`'s entries, which form one contiguous nonempty run holding exactly the
entries cached for `i`. -/
def BucketOk (chain : List (Node K V)) (i : Nat) : Option Ptr → Prop
  | none => ∀ n ∈ chain, n.cached ≠ i
  | some p => ∃ pfx run suf, chain = pfx ++ run ++ suf ∧ AnchorAt p pfx ∧ run ≠ [] ∧
      (∀ n ∈ pfx, n.cached ≠ i) ∧ (∀ n ∈ run, n.cached = i) ∧ (∀ n ∈ suf, n.cached ≠ i)

/-- The anchor invariant for every bucket of a chain/bucket-array pair. -/
def TableOk (chain : List (Node K V)) (bks : List (Option Ptr)) : Prop :=
  ∀ i, BucketOk chain i (bks.getD i none)

/-- Well-formedness of a container state: the bookkeeping fields agree with
the chain, identities and keys are unique, every node's `cached` field is its
key's bucket, allocated identities are below the allocator counter, and the
anchor invariant holds. -/
structure WF (hasher : K → Nat) (m : UMap K V) : Prop where
  blen : m.buckets.length = m.bucketsCount
  szlen : m.sz = m.chain.length
  nodupIds : (ids m.chain).Nodup
  nodupKeys : (m.chain.map (·.key)).Nodup
  cachedEq : ∀ n ∈ m.chain, n.cached = hasher n.key % m.bucketsCount
  idLt : ∀ n ∈ m.chain, n.id < m.nextId
  table : TableOk m.chain m.buckets

/-- Walk a traversal-list segment while the node's cached index equals `i`
(the walk described by the anchor-invariant claim). -/
def walkRun (i : Nat) : List (Node K V) → List (Node K V)
  | [] => []
  | n :: rest => if n.cached = i then n :: walkRun i rest else []

/-- The claim-level anchor invariant: for every non-empty bucket `i` the
anchor stores the node immediately preceding the bucket's first entry in
traversal order, and walking from the anchor's successor while the cached
index equals `i` visits exactly the entries whose key hashes to `i`, as one
contiguous run. -/
def AnchorInvariant (hasher : K → Nat) (m : UMap K V) : Prop :=
  ∀ i, (∃ n ∈ m.chain, hasher n.key % m.bucketsCount = i) →
    ∃ p pfx suf, m.buckets.getD i none = some p ∧
      m.chain = pfx ++ walkRun i (suffixAfter m.chain p) ++ suf ∧
      AnchorAt p pfx ∧ walkRun i (suffixAfter m.chain p) ≠ [] ∧
      (∀ n ∈ pfx, hasher n.key % m.bucketsCount ≠ i) ∧
      (∀ n ∈ suf, hasher n.key % m.bucketsCount ≠ i) ∧
      walkRun i (suffixAfter m.chain p) =
        m.chain.filter (fun n => hasher n.key % m.bucketsCount == i)

/-- The identity hash function used for the concrete test states. -/
def hashNat : Nat → Nat := fun k => k

/-- Concrete-state builder: insert key `k` with value `0`, keeping the map
unchanged when the insertion fails. -/
def insD (m : UMap Nat Nat) (k : Nat) : UMap Nat Nat :=
  match insert hashNat m k 0 with
  | .ok r => r.1
  | _ => m

/-- Concrete-state builder: set the maximum load factor, keeping the map
unchanged on failure. -/
def withMLF (m : UMap Nat Nat) (f : Rat) : UMap Nat Nat :=
  match setMaxLoadFactor m f with
  | .ok r => r
  | _ => m

/-- Concrete state: keys 2 and 12 in a 10-bucket map (both in bucket 2). -/
def mA : UMap Nat Nat := insD (insD (mkUMap 10) 2) 12

/-- Concrete state: keys 2 and 12 in a 4-bucket map (buckets 2 and 0). -/
def mB : UMap Nat Nat := insD (insD (mkUMap 4) 2) 12

/-- Concrete state: keys 12 and 2 (inserted in the other order) in a
10-bucket map. -/
def mA2 : UMap Nat Nat := insD (insD (mkUMap 10) 12) 2

/-- Concrete state: 6 keys in a 10-bucket map with maximum load factor 1/2. -/
def mC4 : UMap Nat Nat :=
  insD (insD (insD (insD (insD (insD (withMLF (mkUMap 10) (mkRat 1 2)) 0) 1) 2) 3) 4) 5

/-- Concrete state: keys 0..10 inserted into a default 10-bucket map. -/
def mC4s : UMap Nat Nat := (List.range 11).foldl insD (mkUMap 10)

/-- Concrete state: keys 0..8 in a default 10-bucket map (one below the
rehash threshold). -/
def m9 : UMap Nat Nat := (List.range 9).foldl insD (mkUMap 10)

/-- The result of the rehash-triggering tenth insertion into `m9`. -/
def mc10 : UMap Nat Nat × Nat :=
  match insert hashNat m9 9 0 with
  | .ok r => r
  | _ => (mkUMap 0, 0)

/-! ### List toolbox -/

theorem getD_set_self (l : List (Option Ptr)) (i : Nat) (v : Option Ptr)
    (h : i < l.length) : (l.set i v).getD i none = v := by
  rw [List.getD_eq_getElem?_getD, List.getElem?_set_self h]
  rfl

theorem getD_set_ne (l : List (Option Ptr)) {i j : Nat} (v : Option Ptr) (h : i ≠ j) :
    (l.set i v).getD j none = l.getD j none := by
  rw [List.getD_eq_getElem?_getD, List.getElem?_set_ne h, ← List.getD_eq_getElem?_getD]

theorem lt_length_of_getD_eq_some {l : List (Option Ptr)} {i : Nat} {p : Ptr}
    (h : l.getD i none = some p) : i < l.length := by
  by_contra hlt
  rw [List.getD_eq_getElem?_getD, List.getElem?_eq_none (by omega)] at h
  simp at h

theorem getD_replicate_none (n i : Nat) :
    (List.replicate n (none : Option Ptr)).getD i none = none := by
  rw [List.getD_eq_getElem?_getD]
  rcases Nat.lt_or_ge i n with h | h
  · rw [List.getElem?_eq_getElem (by simpa using h)]
    simp
  · rw [List.getElem?_eq_none (by simpa using h)]
    rfl

theorem ids_append (A B : List (Node K V)) : ids (A ++ B) = ids A ++ ids B :=
  List.map_append _ _ _

theorem mem_ids {l : List (Node K V)} {j : Nat} :
    j ∈ ids l ↔ ∃ n ∈ l, n.id = j := by
  simp [ids]

theorem dropAfterId_append (A : List (Node K V)) (a : Node K V) (B : List (Node K V))
    (h : a.id ∉ ids A) : dropAfterId (A ++ a :: B) a.id = B := by
  induction A with
  | nil => simp [dropAfterId]
  | cons x xs ih =>
    have hx : ¬ x.id = a.id := by
      intro hxa
      exact h (by simp [ids, hxa])
    have hxs : a.id ∉ ids xs := fun hm => h (by simp [ids] at hm ⊢; tauto)
    simpa [dropAfterId, hx] using ih hxs

theorem insertAfterId_append (A : List (Node K V)) (a : Node K V) (B : List (Node K V))
    (nd : Node K V) (h : a.id ∉ ids A) :
    insertAfterId (A ++ a :: B) a.id nd = A ++ a :: nd :: B := by
  induction A with
  | nil => simp [insertAfterId]
  | cons x xs ih =>
    have hx : ¬ x.id = a.id := by
      intro hxa
      exact h (by simp [ids, hxa])
    have hxs : a.id ∉ ids xs := fun hm => h (by simp [ids] at hm ⊢; tauto)
    simpa [insertAfterId, hx] using ih hxs

theorem removeId_append (A : List (Node K V)) (a : Node K V) (B : List (Node K V))
    (h : a.id ∉ ids A) : removeId (A ++ a :: B) a.id = A ++ B := by
  induction A with
  | nil => simp [removeId]
  | cons x xs ih =>
    have hx : ¬ x.id = a.id := by
      intro hxa
      exact h (by simp [ids, hxa])
    have hxs : a.id ∉ ids xs := fun hm => h (by simp [ids] at hm ⊢; tauto)
    simpa [removeId, hx] using ih hxs

theorem suffixAfter_anchorAt {p : Ptr} (pfx rest : List (Node K V)) (h : AnchorAt p pfx)
    (hn : (ids (pfx ++ rest)).Nodup) : suffixAfter (pfx ++ rest) p = rest := by
  cases p with
  | elist =>
    have : pfx = [] := h
    simp [suffixAfter, this]
  | node j =>
    obtain ⟨a, hlast, hid⟩ := h
    obtain ⟨ys, rfl⟩ := List.getLast?_eq_some_iff.mp hlast
    have hnotin : a.id ∉ ids ys := by
      rw [ids_append, ids_append] at hn
      have := (List.nodup_append.mp ((List.nodup_append.mp hn).1)).2.2
      intro hmem
      exact this hmem (by simp [ids])
    subst hid
    simpa [suffixAfter] using dropAfterId_append ys a rest hnotin

theorem insertAfterPtr_anchorAt {p : Ptr} (pfx rest : List (Node K V)) (nd : Node K V)
    (h : AnchorAt p pfx) (hn : (ids (pfx ++ rest)).Nodup) :
    insertAfterPtr (pfx ++ rest) p nd = pfx ++ nd :: rest := by
  cases p with
  | elist =>
    have : pfx = [] := h
    simp [insertAfterPtr, this]
  | node j =>
    obtain ⟨a, hlast, hid⟩ := h
    obtain ⟨ys, rfl⟩ := List.getLast?_eq_some_iff.mp hlast
    have hnotin : a.id ∉ ids ys := by
      rw [ids_append, ids_append] at hn
      have := (List.nodup_append.mp ((List.nodup_append.mp hn).1)).2.2
      intro hmem
      exact this hmem (by simp [ids])
    subst hid
    simpa [insertAfterPtr] using insertAfterId_append ys a rest nd hnotin

theorem removeId_decomp (A : List (Node K V)) (a : Node K V) (B : List (Node K V))
    (hn : (ids (A ++ a :: B)).Nodup) : removeId (A ++ a :: B) a.id = A ++ B := by
  apply removeId_append
  rw [ids_append] at hn
  have := List.nodup_append.mp hn
  intro hmem
  exact this.2.2 hmem (by simp [ids])

theorem dropAfterId_sublist (l : List (Node K V)) (j : Nat) :
    (dropAfterId l j).Sublist l := by
  induction l with
  | nil => simp [dropAfterId]
  | cons x xs ih =>
    by_cases hx : x.id = j
    · simp [dropAfterId, hx]
    · simp only [dropAfterId, if_neg hx]
      exact ih.cons _

theorem suffixAfter_sublist (l : List (Node K V)) (p : Ptr) :
    (suffixAfter l p).Sublist l := by
  cases p with
  | elist => simp [suffixAfter]
  | node j => exact dropAfterId_sublist l j

theorem find?_id_of_nodup {l : List (Node K V)} {n : Node K V}
    (hn : (ids l).Nodup) (hmem : n ∈ l) :
    l.find? (fun x => x.id == n.id) = some n := by
  induction l with
  | nil => simp at hmem
  | cons x xs ih =>
    have hcons : ids (x :: xs) = x.id :: ids xs := rfl
    rw [hcons, List.nodup_cons] at hn
    rcases List.mem_cons.mp hmem with hmem | hmem
    · subst hmem
      simp [List.find?]
    · have hx : (x.id == n.id) = false := by
        simp only [beq_eq_false_iff_ne, ne_eq]
        intro hxn
        exact hn.1 (hxn ▸ mem_ids.mpr ⟨n, hmem, rfl⟩)
      rw [List.find?, hx]
      exact ih hn.2 hmem

theorem cachedOf_of_mem {l : List (Node K V)} {n : Node K V}
    (hn : (ids l).Nodup) (hmem : n ∈ l) : cachedOf l n.id = some n.cached := by
  rw [cachedOf, find?_id_of_nodup hn hmem]
  rfl

/-! ### Anchor helpers -/

theorem getLast?_append_right (X Y : List (Node K V)) (h : Y ≠ []) :
    (X ++ Y).getLast? = Y.getLast? := by
  rw [List.getLast?_append]
  cases hYl : Y.getLast? with
  | none => exact absurd (List.getLast?_eq_none_iff.mp hYl) h
  | some y => rfl

theorem anchorAt_common_suffix {p : Ptr} {X Y Z : List (Node K V)} (hZ : Z ≠ [])
    (h : AnchorAt p (X ++ Z)) : AnchorAt p (Y ++ Z) := by
  cases p with
  | elist =>
    exact absurd (List.append_eq_nil.mp h).2 hZ
  | node j =>
    obtain ⟨a, hlast, hid⟩ := h
    rw [getLast?_append_right X Z hZ] at hlast
    exact ⟨a, by rw [getLast?_append_right Y Z hZ]; exact hlast, hid⟩

theorem anchorAt_shift {p : Ptr} (X Y : List (Node K V)) {Z : List (Node K V)}
    (hZ : Z ≠ []) (h : AnchorAt p (X ++ Z)) : AnchorAt p (Y ++ Z) :=
  anchorAt_common_suffix hZ h

theorem ne_nil_of_mem {l : List (Node K V)} {n : Node K V} (h : n ∈ l) : l ≠ [] := by
  intro hnil
  rw [hnil] at h
  simp at h

/-! ### The splice transport lemma for unrelated buckets -/

theorem bucketOk_insert_between {pfx run suf : List (Node K V)} {nd : Node K V}
    {buck i : Nat} (hne : i ≠ buck) (hrun : ∀ n ∈ run, n.cached = buck)
    (hrun0 : run ≠ []) (hnd : nd.cached = buck) {o : Option Ptr}
    (h : BucketOk (pfx ++ run ++ suf) i o) :
    BucketOk (pfx ++ nd :: run ++ suf) i o := by
  have hndi : nd.cached ≠ i := by rw [hnd]; exact fun hh => hne hh.symm
  have hruni : ∀ n ∈ run, n.cached ≠ i := fun n hn => by
    rw [hrun n hn]; exact fun hh => hne hh.symm
  cases o with
  | none =>
    simp only [BucketOk] at h ⊢
    intro n hmem
    rcases List.mem_append.mp hmem with h1 | h2
    · rcases List.mem_append.mp h1 with h3 | h4
      · exact h n (List.mem_append.mpr (Or.inl (List.mem_append.mpr (Or.inl h3))))
      · rcases List.mem_cons.mp h4 with rfl | h5
        · exact hndi
        · exact h n (List.mem_append.mpr (Or.inl (List.mem_append.mpr (Or.inr h5))))
    · exact h n (List.mem_append.mpr (Or.inr h2))
  | some q =>
    simp only [BucketOk] at h ⊢
    obtain ⟨P, R, S, hchain, hanch, hR0, hP, hR, hS⟩ := h
    rw [List.append_assoc, List.append_assoc] at hchain
    rcases List.append_eq_append_iff.mp hchain with ⟨E, hPE, hE⟩ | ⟨E, hpfxE, hE⟩
    · -- P = pfx ++ E, run ++ suf = E ++ (R ++ S)
      subst hPE
      rcases List.append_eq_append_iff.mp hE with ⟨F, hEF, hsufF⟩ | ⟨F, hrunF, hF⟩
      · -- E = run ++ F, suf = F ++ (R ++ S)
        subst hEF
        subst hsufF
        refine ⟨(pfx ++ [nd]) ++ (run ++ F), R, S, by simp [List.append_assoc], ?_, hR0,
          ?_, hR, hS⟩
        · exact anchorAt_common_suffix
            (by intro hc; exact hrun0 (List.append_eq_nil.mp hc).1) hanch
        · intro n hmem
          rcases List.mem_append.mp hmem with h1 | h2
          · rcases List.mem_append.mp h1 with h3 | h4
            · exact hP n (List.mem_append.mpr (Or.inl h3))
            · rw [List.mem_singleton] at h4
              subst h4
              exact hndi
          · rcases List.mem_append.mp h2 with h5 | h6
            · exact hruni n h5
            · exact hP n (List.mem_append.mpr (Or.inr (List.mem_append.mpr (Or.inr h6))))
      · -- run = E ++ F, R ++ S = F ++ suf
        cases F with
        | nil =>
          simp only [List.append_nil] at hrunF
          subst hrunF
          simp only [List.nil_append] at hF
          have hsuf : suf = R ++ S := hF.symm
          subst hsuf
          refine ⟨(pfx ++ [nd]) ++ run, R, S, by simp [List.append_assoc], ?_, hR0,
            ?_, hR, hS⟩
          · exact anchorAt_common_suffix hrun0 hanch
          · intro n hmem
            rcases List.mem_append.mp hmem with h1 | h2
            · rcases List.mem_append.mp h1 with h3 | h4
              · exact hP n (List.mem_append.mpr (Or.inl h3))
              · rw [List.mem_singleton] at h4
                subst h4
                exact hndi
            · exact hruni n h2
        | cons f F' =>
          exfalso
          obtain ⟨r, R', rfl⟩ := List.exists_cons_of_ne_nil hR0
          have hf : f ∈ run := by rw [hrunF]; simp
          simp only [List.cons_append] at hF
          have hrf : r = f := (List.cons_eq_cons.mp hF).1
          have h1 : r.cached = i := hR r (by simp)
          have h2 : f.cached = buck := hrun f hf
          rw [hrf, h2] at h1
          exact hne h1.symm
    · -- pfx = P ++ E, R ++ S = E ++ (run ++ suf)
      subst hpfxE
      rcases List.append_eq_append_iff.mp hE with ⟨F, hEF, hSF⟩ | ⟨F, hRF, hF⟩
      · -- E = R ++ F, S = F ++ (run ++ suf)
        subst hEF
        subst hSF
        refine ⟨P, R, F ++ ([nd] ++ (run ++ suf)), by simp [List.append_assoc], hanch, hR0,
          hP, hR, ?_⟩
        intro n hmem
        rcases List.mem_append.mp hmem with h1 | h2
        · exact hS n (List.mem_append.mpr (Or.inl h1))
        · rcases List.mem_append.mp h2 with h3 | h4
          · rw [List.mem_singleton] at h3
            subst h3
            exact hndi
          · rcases List.mem_append.mp h4 with h5 | h6
            · exact hruni n h5
            · exact hS n (List.mem_append.mpr (Or.inr (List.mem_append.mpr (Or.inr h6))))
      · -- R = E ++ F, run ++ suf = F ++ S
        cases F with
        | nil =>
          simp only [List.append_nil] at hRF
          subst hRF
          simp only [List.nil_append] at hF
          refine ⟨P, R, [nd] ++ (run ++ suf), by simp [List.append_assoc], hanch, hR0,
            hP, hR, ?_⟩
          intro n hmem
          rcases List.mem_append.mp hmem with h1 | h2
          · rw [List.mem_singleton] at h1
            subst h1
            exact hndi
          · rcases List.mem_append.mp h2 with h3 | h4
            · exact hruni n h3
            · exact hS n (by rw [← hF]; exact List.mem_append.mpr (Or.inr h4))
        | cons f F' =>
          exfalso
          obtain ⟨r0, run', rfl⟩ := List.exists_cons_of_ne_nil hrun0
          simp only [List.cons_append] at hF
          have hrf : r0 = f := (List.cons_eq_cons.mp hF).1
          have h1 : f.cached = i := hR f (by rw [hRF]; simp)
          have h2 : r0.cached = buck := hrun r0 (by simp)
          rw [hrf, h1] at h2
          exact hne h2

/-! ### Splice preservation -/

theorem anchorAt_nil : AnchorAt Ptr.elist ([] : List (Node K V)) := rfl

theorem anchorAt_singleton (nd : Node K V) : AnchorAt (Ptr.node nd.id) [nd] :=
  ⟨nd, by simp, rfl⟩

theorem bucketOk_nil_none {i : Nat} {o : Option Ptr}
    (h : BucketOk ([] : List (Node K V)) i o) : o = none := by
  cases o with
  | none => rfl
  | some q =>
    exfalso
    simp only [BucketOk] at h
    obtain ⟨pfx, run, suf, hchain, -, hrun0, -⟩ := h
    have := List.append_eq_nil.mp (List.append_eq_nil.mp hchain.symm).1
    exact hrun0 this.2

theorem bucketOk_cons {chain : List (Node K V)} {nd : Node K V} {i : Nat}
    {o : Option Ptr} (hhd : ∀ hd ∈ chain.head?, hd.cached ≠ i) (hndi : nd.cached ≠ i)
    (h : BucketOk chain i o) : BucketOk (nd :: chain) i o := by
  cases o with
  | none =>
    simp only [BucketOk] at h ⊢
    intro n hmem
    rcases List.mem_cons.mp hmem with rfl | hmem
    · exact hndi
    · exact h n hmem
  | some q =>
    simp only [BucketOk] at h ⊢
    obtain ⟨pfx, run, suf, hchain, hanch, hrun0, hpfx, hrunq, hsufq⟩ := h
    cases pfx with
    | nil =>
      exfalso
      obtain ⟨r, run', rfl⟩ := List.exists_cons_of_ne_nil hrun0
      have : chain.head? = some r := by rw [hchain]; simp
      exact hhd r (by rw [this]; rfl) (hrunq r (by simp))
    | cons p0 pfx' =>
      refine ⟨nd :: p0 :: pfx', run, suf, by simp [hchain], ?_, hrun0, ?_, hrunq, hsufq⟩
      · exact anchorAt_shift [] [nd] (by simp) hanch
      · intro n hmem
        rcases List.mem_cons.mp hmem with rfl | hmem
        · exact hndi
        · exact hpfx n hmem

theorem spliceInsert_tableOk {chain : List (Node K V)} {bks : List (Option Ptr)}
    (buck : Nat) (nd : Node K V)
    (ht : TableOk chain bks) (hnod : (ids chain).Nodup)
    (hnd : nd.cached = buck) (hlen : buck < bks.length) :
    TableOk (spliceInsert chain bks buck nd).1 (spliceInsert chain bks buck nd).2 ∧
    (spliceInsert chain bks buck nd).1.Perm (nd :: chain) ∧
    (spliceInsert chain bks buck nd).2.length = bks.length := by
  cases hgb : bks.getD buck none with
  | none =>
    have hempty : ∀ n ∈ chain, n.cached ≠ buck := by
      have := ht buck
      rw [hgb] at this
      exact this
    simp only [spliceInsert, hgb, insertInEmptyBucket]
    cases chain with
    | nil =>
      refine ⟨?_, by simp, by simp⟩
      intro i
      by_cases hib : i = buck
      · subst hib
        rw [getD_set_self _ _ _ hlen]
        exact ⟨[], [nd], [], by simp, anchorAt_nil, by simp,
          by simp, by simp [hnd], by simp⟩
      · rw [getD_set_ne _ _ (fun hh => hib hh.symm)]
        have hno := bucketOk_nil_none (ht i)
        rw [hno]
        intro n hmem
        rcases List.mem_singleton.mp hmem with rfl
        rw [hnd]
        exact fun hh => hib hh.symm
    | cons h rest =>
      have hhb : h.cached ≠ buck := hempty h (by simp)
      -- the head's bucket has a non-null anchor, namely the sentinel
      have hheadBucket : bks.getD h.cached none = some Ptr.elist ∧
          ∃ run suf, h :: rest = run ++ suf ∧ run ≠ [] ∧
            (∀ n ∈ run, n.cached = h.cached) ∧ (∀ n ∈ suf, n.cached ≠ h.cached) := by
        cases hg2 : bks.getD h.cached none with
        | none =>
          exfalso
          have := ht h.cached
          rw [hg2] at this
          exact this h (by simp) rfl
        | some q0 =>
          have hb := ht h.cached
          rw [hg2] at hb
          simp only [BucketOk] at hb
          obtain ⟨pfx, run, suf, hchain, hanch, hrun0, hpfx, hrunq, hsufq⟩ := hb
          cases pfx with
          | cons p0 pfx' =>
            exfalso
            have : h = p0 := by
              have := hchain
              simp only [List.cons_append, List.append_assoc] at this
              exact (List.cons_eq_cons.mp this).1
            exact hpfx p0 (by simp) (this ▸ rfl)
          | nil =>
            simp only [List.nil_append] at hchain
            cases q0 with
            | node j =>
              exfalso
              obtain ⟨a, hlast, -⟩ := hanch
              simp at hlast
            | elist =>
              exact ⟨rfl, run, suf, hchain, hrun0, hrunq, hsufq⟩
      obtain ⟨hg2, run, suf, hchain, hrun0, hrunq, hsufq⟩ := hheadBucket
      have hclt : h.cached < bks.length := lt_length_of_getD_eq_some hg2
      refine ⟨?_, by simp, by simp⟩
      intro i
      by_cases hihc : i = h.cached
      · subst hihc
        rw [getD_set_self _ _ _ (by simpa using hclt)]
        exact ⟨[nd], run, suf, by simp [hchain], anchorAt_singleton nd,
          hrun0, by simpa [hnd] using fun hh => hhb hh.symm, hrunq, hsufq⟩
      · rw [getD_set_ne _ _ (fun hh => hihc hh.symm)]
        by_cases hib : i = buck
        · subst hib
          rw [getD_set_self _ _ _ hlen]
          exact ⟨[], [nd], h :: rest, by simp, anchorAt_nil, by simp,
            by simp, by simp [hnd], hempty⟩
        · rw [getD_set_ne _ _ (fun hh => hib hh.symm)]
          refine bucketOk_cons ?_ ?_ (ht i)
          · intro hd hmem
            simp only [List.head?_cons, Option.mem_def, Option.some_inj] at hmem
            subst hmem
            exact fun hh => hihc hh.symm
          · rw [hnd]
            exact fun hh => hib hh.symm
  | some p =>
    have hb := ht buck
    rw [hgb] at hb
    simp only [BucketOk] at hb
    obtain ⟨pfx, run, suf, hchain, hanch, hrun0, hpfx, hrunb, hsufb⟩ := hb
    have hchain' : chain = pfx ++ (run ++ suf) := by rw [hchain, List.append_assoc]
    have hres : insertAfterPtr chain p nd = pfx ++ nd :: (run ++ suf) := by
      rw [hchain']
      exact insertAfterPtr_anchorAt pfx (run ++ suf) nd hanch (by rw [← hchain']; exact hnod)
    simp only [spliceInsert, hgb, insertInNonemptyBucket, hres]
    refine ⟨?_, ?_, by trivial⟩
    · intro i
      by_cases hib : i = buck
      · subst hib
        rw [hgb]
        refine ⟨pfx, nd :: run, suf, by simp, hanch, by simp, hpfx, ?_, hsufb⟩
        intro n hmem
        rcases List.mem_cons.mp hmem with rfl | hmem
        · exact hnd
        · exact hrunb n hmem
      · have := ht i
        rw [hchain] at this
        have hout := bucketOk_insert_between hib hrunb hrun0 hnd this
        have heq : pfx ++ nd :: run ++ suf = pfx ++ nd :: (run ++ suf) := by
          simp [List.append_assoc]
        rw [heq] at hout
        exact hout
    · rw [hchain']
      exact List.perm_middle

/-! ### Bucket-run lemmas -/

theorem runContains_mem {l : List (Node K V)} {buck : Nat} {key : K}
    (h : runContains l buck key = true) : ∃ n ∈ l, n.key = key ∧ n.cached = buck := by
  induction l with
  | nil => simp [runContains] at h
  | cons n rest ih =>
    by_cases hc : n.cached = buck
    · by_cases hk : n.key = key
      · exact ⟨n, by simp, hk, hc⟩
      · rw [runContains, if_pos hc, if_neg hk] at h
        obtain ⟨x, hx, hxe⟩ := ih h
        exact ⟨x, by simp [hx], hxe⟩
    · rw [runContains, if_neg hc] at h
      exact absurd h (by simp)

theorem runContains_of_mem {run suf : List (Node K V)} {buck : Nat} {key : K}
    {n : Node K V} (hrun : ∀ x ∈ run, x.cached = buck) (hn : n ∈ run)
    (hk : n.key = key) : runContains (run ++ suf) buck key = true := by
  induction run with
  | nil => simp at hn
  | cons r run' ih =>
    have hrc : r.cached = buck := hrun r (by simp)
    by_cases hrk : r.key = key
    · simp [runContains, hrc, hrk]
    · have hn' : n ∈ run' := by
        rcases List.mem_cons.mp hn with rfl | hm
        · exact absurd hk hrk
        · exact hm
      rw [List.cons_append, runContains, if_pos hrc, if_neg hrk]
      exact ih (fun x hx => hrun x (by simp [hx])) hn'

theorem runFindPtr_of_mem {run suf : List (Node K V)} {buck : Nat} {key : K}
    {n : Node K V} (hrun : ∀ x ∈ run, x.cached = buck) (hn : n ∈ run)
    (hk : n.key = key) (huniq : ∀ x ∈ run, x.key = key → x = n) :
    runFindPtr (run ++ suf) buck key = .node n.id := by
  induction run with
  | nil => simp at hn
  | cons r run' ih =>
    have hrc : r.cached = buck := hrun r (by simp)
    by_cases hrk : r.key = key
    · have : r = n := huniq r (by simp) hrk
      subst this
      simp [runFindPtr, hrc, hrk]
    · have hn' : n ∈ run' := by
        rcases List.mem_cons.mp hn with rfl | hm
        · exact absurd hk hrk
        · exact hm
      rw [List.cons_append, runFindPtr, if_pos hrc, if_neg hrk]
      exact ih (fun x hx => hrun x (by simp [hx])) hn'
        (fun x hx hxk => huniq x (by simp [hx]) hxk)

theorem runFindPtr_not_mem {run suf : List (Node K V)} {buck : Nat} {key : K}
    (hrun : ∀ x ∈ run, x.cached = buck) (hkey : ∀ x ∈ run, x.key ≠ key)
    (hsuf : ∀ s ∈ suf.head?, s.cached ≠ buck) :
    runFindPtr (run ++ suf) buck key = .elist := by
  induction run with
  | nil =>
    cases suf with
    | nil => simp [runFindPtr]
    | cons s suf' =>
      have : s.cached ≠ buck := hsuf s rfl
      simp [runFindPtr, this]
  | cons r run' ih =>
    have hrc : r.cached = buck := hrun r (by simp)
    have hrk : r.key ≠ key := hkey r (by simp)
    rw [List.cons_append, runFindPtr, if_pos hrc, if_neg hrk]
    exact ih (fun x hx => hrun x (by simp [hx])) (fun x hx => hkey x (by simp [hx]))

/-- From well-formedness: every entry's bucket has a non-null anchor whose
successor run contains the entry; the walk from the anchor covers exactly its
bucket's run followed by foreign nodes. -/
theorem wf_bucket_decomp (hasher : K → Nat) {m : UMap K V} (hwf : WF hasher m)
    {n : Node K V} (hmem : n ∈ m.chain) :
    ∃ p pfx run suf, m.buckets.getD n.cached none = some p ∧
      m.chain = pfx ++ run ++ suf ∧ AnchorAt p pfx ∧ run ≠ [] ∧
      (∀ x ∈ pfx, x.cached ≠ n.cached) ∧ (∀ x ∈ run, x.cached = n.cached) ∧
      (∀ x ∈ suf, x.cached ≠ n.cached) ∧ n ∈ run ∧
      suffixAfter m.chain p = run ++ suf := by
  cases hgb : m.buckets.getD n.cached none with
  | none =>
    exfalso
    have := hwf.table n.cached
    rw [hgb] at this
    exact this n hmem rfl
  | some p =>
    have hb := hwf.table n.cached
    rw [hgb] at hb
    simp only [BucketOk] at hb
    obtain ⟨pfx, run, suf, hchain, hanch, hrun0, hpfx, hrunq, hsufq⟩ := hb
    have hnin : n ∈ run := by
      have := hmem
      rw [hchain] at this
      rcases List.mem_append.mp this with h1 | h2
      · rcases List.mem_append.mp h1 with h3 | h4
        · exact absurd rfl (hpfx n h3)
        · exact h4
      · exact absurd rfl (hsufq n h2)
    refine ⟨p, pfx, run, suf, rfl, hchain, hanch, hrun0, hpfx, hrunq, hsufq, hnin, ?_⟩
    have hchain' : m.chain = pfx ++ (run ++ suf) := by rw [hchain, List.append_assoc]
    rw [hchain']
    exact suffixAfter_anchorAt pfx (run ++ suf) hanch
      (by rw [← hchain']; exact hwf.nodupIds)

/-- `__find_in_bucket` at the key's own bucket answers the membership
question exactly, on a well-formed map. -/
theorem findInBucket_true_iff (hasher : K → Nat) {m : UMap K V} (hwf : WF hasher m)
    (key : K) :
    findInBucket m (hasher key % m.bucketsCount) key = true ↔ key ∈ keys m := by
  constructor
  · intro h
    rw [findInBucket] at h
    cases hgb : m.buckets.getD (hasher key % m.bucketsCount) none with
    | none => rw [hgb] at h; exact absurd h (by simp)
    | some p =>
      rw [hgb] at h
      obtain ⟨x, hx, hxk, -⟩ := runContains_mem h
      have : x ∈ m.chain := (suffixAfter_sublist m.chain p).mem hx
      exact hxk ▸ List.mem_map.mpr ⟨x, this, rfl⟩
  · intro h
    obtain ⟨n, hmem, hk⟩ := List.mem_map.mp h
    have hc : n.cached = hasher key % m.bucketsCount := by
      rw [hwf.cachedEq n hmem, hk]
    obtain ⟨p, pfx, run, suf, hgb, hchain, hanch, hrun0, hpfx, hrunq, hsufq, hnin, hsufx⟩ :=
      wf_bucket_decomp hasher hwf hmem
    have hfb : findInBucket m n.cached key = runContains (suffixAfter m.chain p) n.cached key := by
      rw [findInBucket, hgb]
    rw [← hc, hfb, hsufx]
    exact runContains_of_mem hrunq hnin hk

/-! ### Rehash preservation -/

theorem map_id_recache (hasher : K → Nat) (n : Nat) (l : List (Node K V)) :
    (l.map (fun x => { x with cached := hasher x.key % n })).map (fun x : Node K V => x.id) =
      l.map (fun x => x.id) := by
  rw [List.map_map]
  rfl

theorem map_key_recache (hasher : K → Nat) (n : Nat) (l : List (Node K V)) :
    (l.map (fun x => { x with cached := hasher x.key % n })).map (fun x : Node K V => x.key) =
      l.map (fun x => x.key) := by
  rw [List.map_map]
  rfl

theorem rehashFold_ok (hasher : K → Nat) {n : Nat} (hn : 0 < n) :
    ∀ (remaining done c : List (Node K V)) (b : List (Option Ptr)),
      (ids (done ++ remaining)).Nodup → TableOk c b → b.length = n →
      c.Perm (done.map (fun x => { x with cached := hasher x.key % n })) →
      TableOk (remaining.foldl (fun acc node =>
          let buck := hasher node.key % n
          spliceInsert acc.1 acc.2 buck { node with cached := buck }) (c, b)).1
        (remaining.foldl (fun acc node =>
          let buck := hasher node.key % n
          spliceInsert acc.1 acc.2 buck { node with cached := buck }) (c, b)).2 ∧
      (remaining.foldl (fun acc node =>
          let buck := hasher node.key % n
          spliceInsert acc.1 acc.2 buck { node with cached := buck }) (c, b)).2.length = n ∧
      (remaining.foldl (fun acc node =>
          let buck := hasher node.key % n
          spliceInsert acc.1 acc.2 buck { node with cached := buck }) (c, b)).1.Perm
        ((done ++ remaining).map (fun x => { x with cached := hasher x.key % n })) := by
  intro remaining
  induction remaining with
  | nil =>
    intro done c b hnod ht hb hperm
    simp only [List.foldl_nil, List.append_nil]
    exact ⟨ht, hb, hperm⟩
  | cons x rest ih =>
    intro done c b hnod ht hb hperm
    have hnodc : (ids c).Nodup := by
      have h1 := hperm.map (fun y : Node K V => y.id)
      rw [map_id_recache] at h1
      have h3 : (ids (done ++ x :: rest)).Nodup := hnod
      rw [ids_append] at h3
      exact h1.nodup_iff.mpr (List.nodup_append.mp h3).1
    have hsp := spliceInsert_tableOk (hasher x.key % n)
      { x with cached := hasher x.key % n } ht hnodc rfl
      (by rw [hb]; exact Nat.mod_lt _ hn)
    have hrec := ih (done ++ [x])
      (spliceInsert c b (hasher x.key % n) { x with cached := hasher x.key % n }).1
      (spliceInsert c b (hasher x.key % n) { x with cached := hasher x.key % n }).2
      (by rw [← List.append_cons]; exact hnod)
      hsp.1 (by rw [hsp.2.2, hb])
      (by
        refine hsp.2.1.trans ?_
        refine (hperm.cons { x with cached := hasher x.key % n }).trans ?_
        rw [List.map_append]
        have hmid : List.Perm
            (done.map (fun y => { y with cached := hasher y.key % n }) ++
              ({ x with cached := hasher x.key % n } : Node K V) :: [])
            (({ x with cached := hasher x.key % n } : Node K V) ::
              (done.map (fun y => { y with cached := hasher y.key % n }) ++ [])) :=
          List.perm_middle
        simpa using hmid.symm)
    rw [← List.append_cons] at hrec
    simp only [List.foldl_cons]
    exact hrec

theorem rehash_wf (hasher : K → Nat) {m : UMap K V} (hwf : WF hasher m) {n : Nat}
    (hn : 0 < n) :
    WF hasher (rehash hasher m n) ∧
    (rehash hasher m n).chain.Perm
      (m.chain.map (fun x => { x with cached := hasher x.key % n })) := by
  have hbase : TableOk ([] : List (Node K V)) (List.replicate n none) := by
    intro i
    rw [getD_replicate_none]
    exact fun x hx => absurd hx (List.not_mem_nil x)
  have h := rehashFold_ok hasher hn m.chain [] [] (List.replicate n none)
    (by simpa using hwf.nodupIds) hbase (by simp) (by simp)
  obtain ⟨ht, hblen, hperm⟩ := h
  have hperm' : (rehash hasher m n).chain.Perm
      (m.chain.map (fun x => { x with cached := hasher x.key % n })) := by
    simpa using hperm
  have hids : ((rehash hasher m n).chain.map (fun x : Node K V => x.id)).Perm
      (m.chain.map (fun x => x.id)) := by
    have h1 := hperm'.map (fun x : Node K V => x.id)
    rwa [map_id_recache] at h1
  have hkeysp : ((rehash hasher m n).chain.map (fun x : Node K V => x.key)).Perm
      (m.chain.map (fun x => x.key)) := by
    have h1 := hperm'.map (fun x : Node K V => x.key)
    rwa [map_key_recache] at h1
  refine ⟨⟨?_, ?_, ?_, ?_, ?_, ?_, ht⟩, hperm'⟩
  · exact hblen
  · have hsz : (rehash hasher m n).sz = m.sz := rfl
    rw [hsz, hwf.szlen, hperm'.length_eq]
    simp
  · exact hids.nodup_iff.mpr hwf.nodupIds
  · exact hkeysp.nodup_iff.mpr hwf.nodupKeys
  · intro x hx
    obtain ⟨y, hy, rfl⟩ := List.mem_map.mp (hperm'.mem_iff.mp hx)
    rfl
  · intro x hx
    obtain ⟨y, hy, rfl⟩ := List.mem_map.mp (hperm'.mem_iff.mp hx)
    exact hwf.idLt y hy

/-! ### Insert preservation -/

theorem insert_eq (hasher : K → Nat) (m : UMap K V) (k : K) (v : V)
    (hz : ¬ m.bucketsCount = 0)
    (hf : findInBucket m (hasher k % m.bucketsCount) k = false) :
    insert hasher m k v =
      if (((m.sz + 1) / m.bucketsCount : Nat) : Rat) ≥ m.mlf then
        .ok (rehash hasher
          { m with
            chain := (spliceInsert m.chain m.buckets (hasher k % m.bucketsCount)
              ⟨m.nextId, k, v, hasher k % m.bucketsCount⟩).1,
            buckets := (spliceInsert m.chain m.buckets (hasher k % m.bucketsCount)
              ⟨m.nextId, k, v, hasher k % m.bucketsCount⟩).2,
            sz := m.sz + 1, nextId := m.nextId + 1 } (m.bucketsCount * 2), m.nextId)
      else
        .ok ({ m with
            chain := (spliceInsert m.chain m.buckets (hasher k % m.bucketsCount)
              ⟨m.nextId, k, v, hasher k % m.bucketsCount⟩).1,
            buckets := (spliceInsert m.chain m.buckets (hasher k % m.bucketsCount)
              ⟨m.nextId, k, v, hasher k % m.bucketsCount⟩).2,
            sz := m.sz + 1, nextId := m.nextId + 1 }, m.nextId) := by
  rw [insert, hashIdx, if_neg hz]
  simp only [hf, Bool.false_eq_true, if_false]

theorem wf_splice (hasher : K → Nat) {m : UMap K V} (hwf : WF hasher m) (k : K) (v : V)
    (hknotin : k ∉ keys m) (hz : ¬ m.bucketsCount = 0) :
    WF hasher { m with
      chain := (spliceInsert m.chain m.buckets (hasher k % m.bucketsCount)
        ⟨m.nextId, k, v, hasher k % m.bucketsCount⟩).1,
      buckets := (spliceInsert m.chain m.buckets (hasher k % m.bucketsCount)
        ⟨m.nextId, k, v, hasher k % m.bucketsCount⟩).2,
      sz := m.sz + 1, nextId := m.nextId + 1 } ∧
    (spliceInsert m.chain m.buckets (hasher k % m.bucketsCount)
      ⟨m.nextId, k, v, hasher k % m.bucketsCount⟩).1.Perm
      (⟨m.nextId, k, v, hasher k % m.bucketsCount⟩ :: m.chain) := by
  have hsp := spliceInsert_tableOk (hasher k % m.bucketsCount)
    ⟨m.nextId, k, v, hasher k % m.bucketsCount⟩ hwf.table hwf.nodupIds rfl
    (by rw [hwf.blen]; exact Nat.mod_lt _ (Nat.pos_of_ne_zero hz))
  refine ⟨⟨?_, ?_, ?_, ?_, ?_, ?_, hsp.1⟩, hsp.2.1⟩
  · show (spliceInsert _ _ _ _).2.length = m.bucketsCount
    rw [hsp.2.2, hwf.blen]
  · show m.sz + 1 = (spliceInsert _ _ _ _).1.length
    rw [hsp.2.1.length_eq, List.length_cons, hwf.szlen]
  · show (ids (spliceInsert _ _ _ _).1).Nodup
    have h1 := hsp.2.1.map (fun x : Node K V => x.id)
    refine h1.nodup_iff.mpr ?_
    rw [List.map_cons]
    refine List.nodup_cons.mpr ⟨?_, hwf.nodupIds⟩
    intro hmem
    obtain ⟨x, hx, hxe⟩ := List.mem_map.mp hmem
    exact absurd hxe (Nat.ne_of_lt (hwf.idLt x hx))
  · show ((spliceInsert _ _ _ _).1.map (fun x : Node K V => x.key)).Nodup
    have h1 := hsp.2.1.map (fun x : Node K V => x.key)
    refine h1.nodup_iff.mpr ?_
    rw [List.map_cons]
    exact List.nodup_cons.mpr ⟨hknotin, hwf.nodupKeys⟩
  · intro x hx
    have hx' := hsp.2.1.mem_iff.mp hx
    rcases List.mem_cons.mp hx' with rfl | hx'
    · rfl
    · exact hwf.cachedEq x hx'
  · intro x hx
    have hx' := hsp.2.1.mem_iff.mp hx
    rcases List.mem_cons.mp hx' with rfl | hx'
    · exact Nat.lt_succ_self _
    · exact Nat.lt_succ_of_lt (hwf.idLt x hx')

theorem insert_ok_spec (hasher : K → Nat) {m : UMap K V} {k : K} {v : V}
    {r : UMap K V × Nat} (hwf : WF hasher m)
    (h : insert hasher m k v = .ok r) :
    WF hasher r.1 ∧ r.2 = m.nextId ∧
    (∃ nd ∈ r.1.chain, nd.id = m.nextId ∧ nd.key = k ∧ nd.val = v) ∧
    (keys r.1).Perm (k :: keys m) ∧
    r.1.sz = m.sz + 1 ∧ r.1.mlf = m.mlf ∧ r.1.nextId = m.nextId + 1 := by
  by_cases hz : m.bucketsCount = 0
  · rw [insert, hashIdx, if_pos hz] at h
    exact absurd h (by simp)
  · by_cases hfb : findInBucket m (hasher k % m.bucketsCount) k = true
    · rw [insert, hashIdx, if_neg hz] at h
      simp only [hfb, if_true] at h
      exact absurd h (by simp)
    · rw [insert_eq hasher m k v hz (Bool.not_eq_true _ ▸ hfb)] at h
      have hknotin : k ∉ keys m := fun hk =>
        hfb ((findInBucket_true_iff hasher hwf k).mpr hk)
      obtain ⟨hwf1, hperm1⟩ := wf_splice hasher hwf k v hknotin hz
      set nd : Node K V := ⟨m.nextId, k, v, hasher k % m.bucketsCount⟩ with hnd
      set m1 : UMap K V := { m with
        chain := (spliceInsert m.chain m.buckets (hasher k % m.bucketsCount) nd).1,
        buckets := (spliceInsert m.chain m.buckets (hasher k % m.bucketsCount) nd).2,
        sz := m.sz + 1, nextId := m.nextId + 1 } with hm1
      have hkeys1 : (keys m1).Perm (k :: keys m) := by
        have h1 := hperm1.map (fun x : Node K V => x.key)
        rw [List.map_cons] at h1
        exact h1
      have hndmem : nd ∈ m1.chain := hperm1.mem_iff.mpr (by simp)
      by_cases hcond : (((m.sz + 1) / m.bucketsCount : Nat) : Rat) ≥ m.mlf
      · rw [if_pos hcond] at h
        have hr : r = (rehash hasher m1 (m.bucketsCount * 2), m.nextId) := by
          cases h
          rfl
        subst hr
        have hn2 : 0 < m.bucketsCount * 2 :=
          Nat.mul_pos (Nat.pos_of_ne_zero hz) (by norm_num)
        obtain ⟨hwfR, hpermR⟩ := rehash_wf hasher hwf1 hn2
        refine ⟨hwfR, rfl, ?_, ?_, rfl, rfl, rfl⟩
        · refine ⟨{ nd with cached := hasher nd.key % (m.bucketsCount * 2) }, ?_, rfl, rfl, rfl⟩
          exact hpermR.mem_iff.mpr (List.mem_map.mpr ⟨nd, hndmem, rfl⟩)
        · have h1 := hpermR.map (fun x : Node K V => x.key)
          rw [map_key_recache] at h1
          exact h1.trans hkeys1
      · rw [if_neg hcond] at h
        have hr : r = (m1, m.nextId) := by
          cases h
          rfl
        subst hr
        exact ⟨hwf1, rfl, ⟨nd, hndmem, rfl, rfl, rfl⟩, hkeys1, rfl, rfl, rfl⟩

/-! ### Erase transport lemmas -/

theorem bucketOk_remove_between {A B : List (Node K V)} {tgt : Node K V} {i : Nat}
    (hti : tgt.cached ≠ i) (hB : ∀ s ∈ B.head?, s.cached ≠ i) {o : Option Ptr}
    (h : BucketOk (A ++ tgt :: B) i o) : BucketOk (A ++ B) i o := by
  cases o with
  | none =>
    simp only [BucketOk] at h ⊢
    intro n hmem
    rcases List.mem_append.mp hmem with h1 | h2
    · exact h n (List.mem_append.mpr (Or.inl h1))
    · exact h n (List.mem_append.mpr (Or.inr (by simp [h2])))
  | some q =>
    simp only [BucketOk] at h ⊢
    obtain ⟨P, R, S, hchain, hanch, hR0, hP, hR, hS⟩ := h
    obtain ⟨r, R', rfl⟩ := List.exists_cons_of_ne_nil hR0
    rw [List.append_assoc] at hchain
    rcases List.append_eq_append_iff.mp hchain.symm with ⟨E, hAE, hE⟩ | ⟨E, hPE, hE⟩
    · -- A = P ++ E, (r :: R') ++ S = E ++ (tgt :: B)
      subst hAE
      rcases List.append_eq_append_iff.mp hE with ⟨F, hEF, hSF⟩ | ⟨F, hRF, hF⟩
      · -- E = (r :: R') ++ F, S = F ++ (tgt :: B)
        subst hEF
        subst hSF
        refine ⟨P, r :: R', F ++ B, by simp [List.append_assoc], hanch, by simp, hP, hR, ?_⟩
        intro n hmem
        rcases List.mem_append.mp hmem with h1 | h2
        · exact hS n (List.mem_append.mpr (Or.inl h1))
        · exact hS n (List.mem_append.mpr (Or.inr (by simp [h2])))
      · -- r :: R' = E ++ F, tgt :: B = F ++ S
        cases F with
        | nil =>
          simp only [List.append_nil] at hRF
          subst hRF
          simp only [List.nil_append] at hF
          refine ⟨P, r :: R', B, by simp [List.append_assoc], hanch, by simp, hP, hR, ?_⟩
          intro n hmem
          refine hS n ?_
          rw [← hF]
          exact List.mem_cons_of_mem tgt hmem
        | cons f F' =>
          exfalso
          simp only [List.cons_append] at hF
          have heq : tgt = f := (List.cons_eq_cons.mp hF).1
          have hfR : f ∈ r :: R' := by rw [hRF]; simp
          exact hti (heq ▸ hR f hfR)
    · -- P = A ++ E, tgt :: B = E ++ ((r :: R') ++ S)
      subst hPE
      cases E with
      | nil =>
        exfalso
        simp only [List.nil_append, List.cons_append] at hE
        have heq : tgt = r := (List.cons_eq_cons.mp hE).1
        exact hti (heq ▸ hR r (by simp))
      | cons e E' =>
        simp only [List.cons_append] at hE
        obtain ⟨rfl, hBE⟩ := List.cons_eq_cons.mp hE
        cases E' with
        | nil =>
          exfalso
          simp only [List.nil_append, List.cons_append] at hBE
          refine hB r ?_ (hR r (by simp))
          rw [hBE]
          rfl
        | cons x E'' =>
          refine ⟨A ++ x :: E'', r :: R', S, ?_, ?_, by simp, ?_, hR, hS⟩
          · rw [hBE]
            simp [List.append_assoc]
          · exact anchorAt_shift (A ++ [tgt]) A (by simp)
              (by simpa [List.append_assoc] using hanch)
          · intro n hmem
            rcases List.mem_append.mp hmem with h1 | h2
            · exact hP n (List.mem_append.mpr (Or.inl h1))
            · exact hP n (List.mem_append.mpr (Or.inr (by simp [List.mem_cons.mp h2])))

theorem bucketOk_fix_succ {X Y : List (Node K V)} {tgt s : Node K V} {i : Nat}
    (htgt : tgt.cached ≠ i) (hs : s.cached = i) {bef : Ptr} (hbef : AnchorAt bef X)
    {o : Option Ptr} (h : BucketOk (X ++ tgt :: s :: Y) i o) :
    BucketOk (X ++ s :: Y) i (some bef) := by
  cases o with
  | none =>
    exfalso
    simp only [BucketOk] at h
    exact h s (by simp) hs
  | some q =>
    simp only [BucketOk] at h ⊢
    obtain ⟨P, R, S, hchain, hanch, hR0, hP, hR, hS⟩ := h
    have hmain : P = X ++ [tgt] ∧ R ++ S = s :: Y := by
      rw [List.append_assoc, List.append_cons X tgt] at hchain
      rcases List.append_eq_append_iff.mp hchain.symm with ⟨E, hPE, hE⟩ | ⟨E, hPE, hE⟩
      · -- X ++ [tgt] = P ++ E, R ++ S = E ++ (s :: Y)
        cases E with
        | nil =>
          simp only [List.append_nil] at hPE
          simp only [List.nil_append] at hE
          exact ⟨hPE.symm, hE⟩
        | cons e E' =>
          exfalso
          have hlast : (e :: E').getLast? = some tgt := by
            have h1 : (P ++ e :: E').getLast? = (X ++ [tgt]).getLast? := by rw [hPE]
            rw [getLast?_append_right P (e :: E') (by simp), List.getLast?_concat] at h1
            exact h1
          obtain ⟨ys, hys⟩ := List.getLast?_eq_some_iff.mp hlast
          have htgtE : tgt ∈ e :: E' := by rw [hys]; simp
          rcases List.append_eq_append_iff.mp hE with ⟨G, hEG, hSG⟩ | ⟨G, hRG, hG⟩
          · -- E = R ++ G, S = G ++ (s :: Y)
            have hsS : s ∈ S := by rw [hSG]; simp
            exact hS s hsS hs
          · -- R = E ++ G
            have htR : tgt ∈ R := by rw [hRG]; exact List.mem_append.mpr (Or.inl htgtE)
            exact htgt (hR tgt htR)
      · -- P = (X ++ [tgt]) ++ E, s :: Y = E ++ (R ++ S)
        cases E with
        | nil =>
          simp only [List.append_nil] at hPE
          simp only [List.nil_append] at hE
          exact ⟨hPE, hE.symm⟩
        | cons e E' =>
          exfalso
          simp only [List.cons_append] at hE
          have heq : s = e := (List.cons_eq_cons.mp hE).1
          refine (hP e ?_) (heq ▸ hs)
          rw [hPE]
          simp
    obtain ⟨hPX, hRS⟩ := hmain
    refine ⟨X, R, S, ?_, hbef, hR0, ?_, hR, hS⟩
    · rw [List.append_assoc, hRS]
    · intro n hn
      exact hP n (by rw [hPX]; exact List.mem_append.mpr (Or.inl hn))

theorem eraseScan_found {buck : Nat} {key : K} (tgt : Node K V) (rest : List (Node K V))
    (htc : tgt.cached = buck) (htk : tgt.key = key) :
    ∀ (r1 : List (Node K V)) (bef : Ptr),
      (∀ x ∈ r1, x.cached = buck ∧ ¬ x.key = key) →
      eraseScan buck key bef (r1 ++ tgt :: rest) =
        some (r1.foldl (fun _ x => Ptr.node x.id) bef, tgt.id, rest.head?)
  | [], bef, _ => by simp [eraseScan, htc, htk]
  | x :: r1', bef, h => by
    have hx := h x (by simp)
    rw [List.cons_append, eraseScan, if_pos hx.1, if_neg hx.2, List.foldl_cons]
    exact eraseScan_found tgt rest htc htk r1' (Ptr.node x.id) (fun y hy => h y (by simp [hy]))

theorem eraseScan_notFound {buck : Nat} {key : K} :
    ∀ (run suf : List (Node K V)) (bef : Ptr),
      (∀ x ∈ run, x.cached = buck → ¬ x.key = key) →
      (∀ s ∈ suf.head?, s.cached ≠ buck) →
      eraseScan buck key bef (run ++ suf) = none
  | [], suf, bef, _, hsuf => by
    cases suf with
    | nil => rfl
    | cons s suf' =>
      have : s.cached ≠ buck := hsuf s rfl
      simp [eraseScan, this]
  | x :: run', suf, bef, hrun, hsuf => by
    rw [List.cons_append, eraseScan]
    by_cases hc : x.cached = buck
    · rw [if_pos hc, if_neg (hrun x (by simp) hc)]
      exact eraseScan_notFound run' suf (Ptr.node x.id) (fun y hy => hrun y (by simp [hy])) hsuf
    · rw [if_neg hc]

theorem eraseScan_some {buck : Nat} {key : K} :
    ∀ (l : List (Node K V)) (bef : Ptr) {b : Ptr} {t : Nat} {sOpt : Option (Node K V)},
      eraseScan buck key bef l = some (b, t, sOpt) →
      ∃ r1 tgt r2, l = r1 ++ tgt :: r2 ∧
        (∀ x ∈ r1, x.cached = buck ∧ ¬ x.key = key) ∧
        tgt.cached = buck ∧ tgt.key = key ∧
        b = r1.foldl (fun _ x => Ptr.node x.id) bef ∧ t = tgt.id ∧ sOpt = r2.head?
  | [], bef, b, t, sOpt => by intro h; exact absurd h (by simp [eraseScan])
  | x :: l', bef, b, t, sOpt => by
    intro h
    rw [eraseScan] at h
    by_cases hc : x.cached = buck
    · rw [if_pos hc] at h
      by_cases hk : x.key = key
      · rw [if_pos hk] at h
        obtain ⟨rfl, rfl, rfl⟩ : b = bef ∧ t = x.id ∧ sOpt = l'.head? := by
          cases h
          exact ⟨rfl, rfl, rfl⟩
        exact ⟨[], x, l', by simp, by simp, hc, hk, rfl, rfl, rfl⟩
      · rw [if_neg hk] at h
        obtain ⟨r1, tgt, r2, hl, hr1, htc, htk, hb, ht, hs⟩ :=
          eraseScan_some l' (Ptr.node x.id) h
        exact ⟨x :: r1, tgt, r2, by simp [hl], by
            intro y hy
            rcases List.mem_cons.mp hy with rfl | hy
            · exact ⟨hc, hk⟩
            · exact hr1 y hy,
          htc, htk, by simp [hb], ht, hs⟩
    · rw [if_neg hc] at h
      exact absurd h (by simp)

theorem foldl_ptr_concat (r1 : List (Node K V)) (a : Node K V) (bef : Ptr) :
    (r1 ++ [a]).foldl (fun _ x => Ptr.node x.id) bef = Ptr.node a.id := by
  rw [List.foldl_append]
  rfl

/-! ### Erase preservation -/

theorem erase_ok_wf (hasher : K → Nat) {m : UMap K V} {key : K} {m' : UMap K V}
    (hwf : WF hasher m) (h : erase hasher m key = .ok m') : WF hasher m' := by
  by_cases hz : m.bucketsCount = 0
  · rw [erase, hashIdx, if_pos hz] at h
    exact absurd h (by simp)
  cases hgb : m.buckets.getD (hasher key % m.bucketsCount) none with
  | none =>
    rw [erase, hashIdx, if_neg hz] at h
    simp only [hgb] at h
    exact absurd h (by simp)
  | some p =>
    cases hscan : eraseScan (hasher key % m.bucketsCount) key p (suffixAfter m.chain p) with
    | none =>
      rw [erase, hashIdx, if_neg hz] at h
      simp only [hgb, hscan] at h
      exact absurd h (by simp)
    | some res =>
      obtain ⟨bef, tid, sOpt⟩ := res
      rw [erase, hashIdx, if_neg hz] at h
      simp only [hgb, hscan, Res.ok.injEq] at h
      subst h
      have hb := hwf.table (hasher key % m.bucketsCount)
      rw [hgb] at hb
      simp only [BucketOk] at hb
      obtain ⟨pfx, run, suf, hchain, hanch, hrun0, hpfx, hrunq, hsufq⟩ := hb
      have hchainA : m.chain = pfx ++ (run ++ suf) := by rw [hchain, List.append_assoc]
      have hsfx : suffixAfter m.chain p = run ++ suf := by
        rw [hchainA]
        exact suffixAfter_anchorAt pfx (run ++ suf) hanch
          (by rw [← hchainA]; exact hwf.nodupIds)
      obtain ⟨r1, tgt, r2, hl, hr1, htc, htk, hbef, htid, hsOpt⟩ :=
        eraseScan_some (suffixAfter m.chain p) p hscan
      rw [hsfx] at hl
      subst htid
      obtain ⟨E2, hrunEq, hr2Eq⟩ : ∃ E2, run = r1 ++ tgt :: E2 ∧ r2 = E2 ++ suf := by
        rcases List.append_eq_append_iff.mp hl with ⟨E, hr1E, hE⟩ | ⟨E, hrunE, hE⟩
        · exfalso
          have htin : tgt ∈ suf := by rw [hE]; simp
          exact hsufq tgt htin htc
        · cases E with
          | nil =>
            exfalso
            simp only [List.nil_append] at hE
            have htin : tgt ∈ suf := by rw [← hE]; simp
            exact hsufq tgt htin htc
          | cons e E2 =>
            simp only [List.cons_append] at hE
            obtain ⟨he, hr2⟩ := List.cons_eq_cons.mp hE
            exact ⟨E2, by rw [hrunE, ← he], hr2⟩
      subst hr2Eq
      subst hsOpt
      subst hrunEq
      have hr1run : ∀ x ∈ r1, x.cached = hasher key % m.bucketsCount := fun x hx =>
        hrunq x (by simp [hx])
      have hE2run : ∀ x ∈ E2, x.cached = hasher key % m.bucketsCount := fun x hx =>
        hrunq x (by simp [hx])
      have hchain2 : m.chain = (pfx ++ r1) ++ tgt :: (E2 ++ suf) := by
        rw [hchain]
        simp [List.append_assoc]
      have hrm : removeId m.chain tgt.id = (pfx ++ r1) ++ (E2 ++ suf) := by
        rw [hchain2]
        exact removeId_decomp (pfx ++ r1) tgt (E2 ++ suf)
          (by rw [← hchain2]; exact hwf.nodupIds)
      have hbefAnch : AnchorAt bef (pfx ++ r1) := by
        rcases List.eq_nil_or_concat r1 with rfl | ⟨r1', a, hr1c⟩
        · have hbp : bef = p := by simpa using hbef
          rw [hbp, List.append_nil]
          exact hanch
        · rw [List.concat_eq_append] at hr1c
          subst hr1c
          have hba : bef = Ptr.node a.id := by
            rw [hbef]
            exact foldl_ptr_concat r1' a p
          rw [hba]
          refine ⟨a, ?_, rfl⟩
          rw [← List.append_assoc, List.getLast?_concat]
      have htgtne : ∀ {i : Nat}, ¬ i = hasher key % m.bucketsCount → tgt.cached ≠ i :=
        fun hib hcon => hib (hcon ▸ htc)
      have mkwf : ∀ (bks' : List (Option Ptr)), bks'.length = m.buckets.length →
          TableOk ((pfx ++ r1) ++ (E2 ++ suf)) bks' →
          WF hasher
            { m with chain := removeId m.chain tgt.id, buckets := bks', sz := m.sz - 1 } := by
        intro bks' hblen ht
        have hsub : (removeId m.chain tgt.id).Sublist m.chain := by
          rw [hrm, hchain2]
          exact List.Sublist.append_left (List.sublist_cons_self tgt (E2 ++ suf)) (pfx ++ r1)
        refine ⟨?_, ?_, ?_, ?_, ?_, ?_, ?_⟩
        · show bks'.length = m.bucketsCount
          rw [hblen, hwf.blen]
        · show m.sz - 1 = (removeId m.chain tgt.id).length
          rw [hrm, hwf.szlen]
          have h1 := congrArg List.length hchain2
          simp only [List.length_append, List.length_cons] at h1 ⊢
          omega
        · exact (hsub.map (fun x : Node K V => x.id)).nodup hwf.nodupIds
        · exact (hsub.map (fun x : Node K V => x.key)).nodup hwf.nodupKeys
        · intro x hx
          exact hwf.cachedEq x (hsub.subset hx)
        · intro x hx
          exact hwf.idLt x (hsub.subset hx)
        · show TableOk (removeId m.chain tgt.id) bks'
          rw [hrm]
          exact ht
      cases E2 with
      | cons e E2' =>
        have hec : e.cached = hasher key % m.bucketsCount := hE2run e (by simp)
        simp only [List.cons_append, List.head?_cons]
        rw [if_neg (fun hcon => hcon hec)]
        refine mkwf m.buckets rfl ?_
        intro i
        by_cases hib : i = hasher key % m.bucketsCount
        · subst hib
          rw [hgb]
          refine ⟨pfx, r1 ++ e :: E2', suf, ?_, hanch, by simp, hpfx, ?_, hsufq⟩
          · simp [List.append_assoc]
          · intro x hx
            rcases List.mem_append.mp hx with h1 | h2
            · exact hr1run x h1
            · rcases List.mem_cons.mp h2 with rfl | h3
              · exact hec
              · exact hE2run x (by simp [h3])
        · have hold := hwf.table i
          rw [hchain2] at hold
          exact bucketOk_remove_between (htgtne hib)
            (fun s hs => by
              have hse : e = s := by simpa using hs
              subst hse
              rw [hec]
              exact fun hcon => hib hcon.symm)
            hold
      | nil =>
        cases suf with
        | nil =>
          simp only [List.nil_append, List.head?_nil]
          rcases List.eq_nil_or_concat r1 with rfl | ⟨r1', a, hr1c⟩
          · have hbp : bef = p := by simpa using hbef
            have hnib : notInBuck m.chain (hasher key % m.bucketsCount) bef = true := by
              rw [hbp]
              cases p with
              | elist => rfl
              | node j =>
                obtain ⟨a0, hlast0, hid0⟩ := hanch
                obtain ⟨ys, hys⟩ := List.getLast?_eq_some_iff.mp hlast0
                have ha0mem : a0 ∈ m.chain := by rw [hchain, hys]; simp
                have ha0c : a0.cached ≠ hasher key % m.bucketsCount :=
                  hpfx a0 (by rw [hys]; simp)
                have hco : cachedOf m.chain j = some a0.cached := by
                  rw [← hid0]
                  exact cachedOf_of_mem hwf.nodupIds ha0mem
                simp [notInBuck, hco, ha0c]
            rw [if_pos (by rw [hnib])]
            refine mkwf (m.buckets.set (hasher key % m.bucketsCount) none)
              (List.length_set _ _ _) ?_
            intro i
            by_cases hib : i = hasher key % m.bucketsCount
            · subst hib
              rw [getD_set_self _ _ _ (lt_length_of_getD_eq_some hgb)]
              intro x hx
              exact hpfx x (by simpa using hx)
            · rw [getD_set_ne _ _ (fun hh => hib hh.symm)]
              have hold := hwf.table i
              rw [hchain2] at hold
              exact bucketOk_remove_between (htgtne hib)
                (fun s hs => by simp at hs) hold
          · rw [List.concat_eq_append] at hr1c
            subst hr1c
            have hba : bef = Ptr.node a.id := by
              rw [hbef]
              exact foldl_ptr_concat r1' a p
            have hamem : a ∈ m.chain := by rw [hchain2]; simp
            have hac : a.cached = hasher key % m.bucketsCount := hr1run a (by simp)
            have hnib : notInBuck m.chain (hasher key % m.bucketsCount) bef = false := by
              rw [hba]
              simp [notInBuck, cachedOf_of_mem hwf.nodupIds hamem, hac]
            rw [if_neg (by simp [hnib])]
            refine mkwf m.buckets rfl ?_
            intro i
            by_cases hib : i = hasher key % m.bucketsCount
            · subst hib
              rw [hgb]
              refine ⟨pfx, r1' ++ [a], [], ?_, hanch, by simp, hpfx, ?_, by simp⟩
              · simp [List.append_assoc]
              · intro x hx
                exact hr1run x hx
            · have hold := hwf.table i
              rw [hchain2] at hold
              exact bucketOk_remove_between (htgtne hib)
                (fun s hs => by simp at hs) hold
        | cons s suf' =>
          have hsc : s.cached ≠ hasher key % m.bucketsCount := hsufq s (by simp)
          have hsmem : s ∈ m.chain := by rw [hchain]; simp
          have hslt : s.cached < m.buckets.length := by
            cases hg2 : m.buckets.getD s.cached none with
            | none =>
              exfalso
              have hbad := hwf.table s.cached
              rw [hg2] at hbad
              exact hbad s hsmem rfl
            | some q2 => exact lt_length_of_getD_eq_some hg2
          simp only [List.nil_append, List.head?_cons]
          rw [if_pos hsc]
          have hfix : ∀ (o : Option Ptr), o = m.buckets.getD s.cached none →
              BucketOk ((pfx ++ r1) ++ ([] ++ s :: suf')) s.cached (some bef) := by
            intro o ho
            have hold := hwf.table s.cached
            rw [hchain2] at hold
            exact bucketOk_fix_succ (htgtne hsc) rfl hbefAnch hold
          rcases List.eq_nil_or_concat r1 with rfl | ⟨r1', a, hr1c⟩
          · have hbp : bef = p := by simpa using hbef
            have hnib : notInBuck m.chain (hasher key % m.bucketsCount) bef = true := by
              rw [hbp]
              cases p with
              | elist => rfl
              | node j =>
                obtain ⟨a0, hlast0, hid0⟩ := hanch
                obtain ⟨ys, hys⟩ := List.getLast?_eq_some_iff.mp hlast0
                have ha0mem : a0 ∈ m.chain := by rw [hchain, hys]; simp
                have ha0c : a0.cached ≠ hasher key % m.bucketsCount :=
                  hpfx a0 (by rw [hys]; simp)
                have hco : cachedOf m.chain j = some a0.cached := by
                  rw [← hid0]
                  exact cachedOf_of_mem hwf.nodupIds ha0mem
                simp [notInBuck, hco, ha0c]
            rw [if_pos (by rw [hnib])]
            refine mkwf ((m.buckets.set s.cached (some bef)).set
              (hasher key % m.bucketsCount) none)
              (by rw [List.length_set, List.length_set]) ?_
            intro i
            by_cases hib : i = hasher key % m.bucketsCount
            · subst hib
              rw [getD_set_self _ _ _
                (by rw [List.length_set]; exact lt_length_of_getD_eq_some hgb)]
              intro x hx
              rcases List.mem_append.mp hx with h1 | h2
              · exact hpfx x (by simpa using h1)
              · have hxs : x ∈ s :: suf' := by simpa using h2
                exact hsufq x hxs
            · rw [getD_set_ne _ _ (fun hh => hib hh.symm)]
              by_cases his : i = s.cached
              · subst his
                rw [getD_set_self _ _ _ hslt]
                exact hfix _ rfl
              · rw [getD_set_ne _ _ (fun hh => his hh.symm)]
                have hold := hwf.table i
                rw [hchain2] at hold
                exact bucketOk_remove_between (htgtne hib)
                  (fun x hx => by
                    have hxs : s = x := by simpa using hx
                    subst hxs
                    exact fun hcon => his hcon.symm)
                  hold
          · rw [List.concat_eq_append] at hr1c
            subst hr1c
            have hba : bef = Ptr.node a.id := by
              rw [hbef]
              exact foldl_ptr_concat r1' a p
            have hamem : a ∈ m.chain := by rw [hchain2]; simp
            have hac : a.cached = hasher key % m.bucketsCount := hr1run a (by simp)
            have hnib : notInBuck m.chain (hasher key % m.bucketsCount) bef = false := by
              rw [hba]
              simp [notInBuck, cachedOf_of_mem hwf.nodupIds hamem, hac]
            rw [if_neg (by simp [hnib])]
            refine mkwf (m.buckets.set s.cached (some bef)) (List.length_set _ _ _) ?_
            intro i
            by_cases his : i = s.cached
            · subst his
              rw [getD_set_self _ _ _ hslt]
              exact hfix _ rfl
            · rw [getD_set_ne _ _ (fun hh => his hh.symm)]
              by_cases hib : i = hasher key % m.bucketsCount
              · subst hib
                rw [hgb]
                refine ⟨pfx, r1' ++ [a], s :: suf', ?_, hanch, by simp, hpfx, ?_, hsufq⟩
                · simp [List.append_assoc]
                · intro x hx
                  exact hr1run x hx
              · have hold := hwf.table i
                rw [hchain2] at hold
                exact bucketOk_remove_between (htgtne hib)
                  (fun x hx => by
                    have hxs : s = x := by simpa using hx
                    subst hxs
                    exact fun hcon => his hcon.symm)
                  hold

/-! ### Final helpers -/

theorem wf_mk (hasher : K → Nat) (n : Nat) : WF hasher (mkUMap n : UMap K V) := by
  refine ⟨by simp [mkUMap], rfl, by simp [ids, mkUMap], by simp [mkUMap], ?_, ?_, ?_⟩
  · intro x hx
    simp [mkUMap] at hx
  · intro x hx
    simp [mkUMap] at hx
  · intro i
    show BucketOk ([] : List (Node K V)) i ((List.replicate n none).getD i none)
    rw [getD_replicate_none]
    exact fun x hx => absurd hx (List.not_mem_nil x)

theorem wf_insD {m : UMap Nat Nat} (hwf : WF hashNat m) (k : Nat) :
    WF hashNat (insD m k) := by
  rw [insD]
  cases h : insert hashNat m k 0 with
  | ok r => exact (insert_ok_spec hashNat hwf h).1
  | exn e => exact hwf
  | ub => exact hwf
  | terminated => exact hwf

theorem wf_foldl_insD : ∀ (l : List Nat) (m : UMap Nat Nat), WF hashNat m →
    WF hashNat (l.foldl insD m)
  | [], m, hwf => hwf
  | k :: l, m, hwf => wf_foldl_insD l (insD m k) (wf_insD hwf k)

theorem wf_mA : WF hashNat mA := wf_insD (wf_insD (wf_mk hashNat 10) 2) 12

theorem wf_mB : WF hashNat mB := wf_insD (wf_insD (wf_mk hashNat 4) 2) 12

theorem wf_m9 : WF hashNat m9 := wf_foldl_insD (List.range 9) _ (wf_mk hashNat 10)

theorem key_unique {l : List (Node K V)} (h : (l.map (·.key)).Nodup) {x y : Node K V}
    (hx : x ∈ l) (hy : y ∈ l) (hk : x.key = y.key) : x = y := by
  induction l with
  | nil => simp at hx
  | cons z l' ih =>
    rw [List.map_cons, List.nodup_cons] at h
    rcases List.mem_cons.mp hx with rfl | hx' <;> rcases List.mem_cons.mp hy with rfl | hy'
    · rfl
    · exact absurd (List.mem_map.mpr ⟨y, hy', hk.symm⟩) h.1
    · exact absurd (List.mem_map.mpr ⟨x, hx', hk⟩) h.1
    · exact ih h.2 hx' hy'

theorem get?_eq_some_of_getD {l : List (Option Ptr)} {i : Nat} {p : Ptr}
    (h : l.getD i none = some p) : l.get? i = some (some p) := by
  have hlt := lt_length_of_getD_eq_some h
  rw [List.getD_eq_getElem?_getD, List.getElem?_eq_getElem hlt] at h
  rw [List.get?_eq_getElem?, List.getElem?_eq_getElem hlt]
  simp only [Option.getD_some] at h
  rw [h]

theorem walkRun_append_run {run suf : List (Node K V)} {i : Nat}
    (hrun : ∀ x ∈ run, x.cached = i) (hsuf : ∀ s ∈ suf.head?, s.cached ≠ i) :
    walkRun i (run ++ suf) = run := by
  induction run with
  | nil =>
    cases suf with
    | nil => rfl
    | cons s suf' =>
      have hsc := hsuf s rfl
      simp [walkRun, hsc]
  | cons r run' ih =>
    rw [List.cons_append, walkRun, if_pos (hrun r (by simp)),
      ih (fun x hx => hrun x (by simp [hx]))]

theorem wf_anchorInvariant (hasher : K → Nat) {m : UMap K V} (hwf : WF hasher m) :
    AnchorInvariant hasher m := by
  rintro i ⟨n, hmem, hhash⟩
  have hc : n.cached = i := by rw [hwf.cachedEq n hmem, hhash]
  obtain ⟨p, pfx, run, suf, hgb, hchain, hanch, hrun0, hpfx, hrunq, hsufq, hnin, hsufx⟩ :=
    wf_bucket_decomp hasher hwf hmem
  rw [hc] at hgb hpfx hrunq hsufq
  have hwalk : walkRun i (suffixAfter m.chain p) = run := by
    rw [hsufx]
    exact walkRun_append_run hrunq
      (fun s hs => hsufq s (List.mem_of_mem_head? hs))
  have hmempfx : ∀ x ∈ pfx, x ∈ m.chain := fun x hx => by
    rw [hchain]
    simp [hx]
  have hmemsuf : ∀ x ∈ suf, x ∈ m.chain := fun x hx => by
    rw [hchain]
    simp [hx]
  have hmemrun : ∀ x ∈ run, x ∈ m.chain := fun x hx => by
    rw [hchain]
    simp [hx]
  refine ⟨p, pfx, suf, hgb, by rw [hwalk]; exact hchain, hanch, by rw [hwalk]; exact hrun0,
    ?_, ?_, ?_⟩
  · intro x hx hcon
    refine hpfx x hx ?_
    rw [hwf.cachedEq x (hmempfx x hx), hcon]
  · intro x hx hcon
    refine hsufq x hx ?_
    rw [hwf.cachedEq x (hmemsuf x hx), hcon]
  · rw [hwalk, hchain, List.filter_append, List.filter_append]
    have h1 : pfx.filter (fun x => hasher x.key % m.bucketsCount == i) = [] := by
      rw [List.filter_eq_nil_iff]
      intro x hx
      simp only [beq_iff_eq]
      intro hcon
      exact hpfx x hx (by rw [hwf.cachedEq x (hmempfx x hx), hcon])
    have h2 : run.filter (fun x => hasher x.key % m.bucketsCount == i) = run := by
      rw [List.filter_eq_self]
      intro x hx
      simp only [beq_iff_eq]
      rw [← hwf.cachedEq x (hmemrun x hx)]
      exact hrunq x hx
    have h3 : suf.filter (fun x => hasher x.key % m.bucketsCount == i) = [] := by
      rw [List.filter_eq_nil_iff]
      intro x hx
      simp only [beq_iff_eq]
      intro hcon
      exact hsufq x hx (by rw [hwf.cachedEq x (hmemsuf x hx), hcon])
    rw [h1, h2, h3, List.append_nil, List.nil_append]

theorem eqLoop_ok_true_iff (b : UMap K V) :
    ∀ l : List (Node K V), eqLoop b l = .ok true ↔
      ∀ th ∈ l, ∃ p, b.buckets.get? th.cached = some (some p) ∧
        runContains (suffixAfter b.chain p) th.cached th.key = true
  | [] => by simp [eqLoop]
  | th :: rest => by
    rw [eqLoop]
    cases hg : b.buckets.get? th.cached with
    | none =>
      constructor
      · intro h
        exact absurd h (by simp)
      · intro hall
        obtain ⟨p, hp, -⟩ := hall th (by simp)
        rw [hg] at hp
        exact absurd hp (by simp)
    | some o =>
      cases o with
      | none =>
        constructor
        · intro h
          exact absurd h (by simp)
        · intro hall
          obtain ⟨p, hp, -⟩ := hall th (by simp)
          rw [hg] at hp
          exact absurd hp (by simp)
      | some p =>
        dsimp only
        by_cases hr : runContains (suffixAfter b.chain p) th.cached th.key = true
        · rw [if_pos hr, eqLoop_ok_true_iff b rest]
          constructor
          · intro hall x hx
            rcases List.mem_cons.mp hx with rfl | hx'
            · exact ⟨p, hg, hr⟩
            · exact hall x hx'
          · intro hall x hx
            exact hall x (List.mem_cons_of_mem th hx)
        · rw [if_neg hr]
          constructor
          · intro h
            exact absurd h (by simp)
          · intro hall
            obtain ⟨p', hp', hr'⟩ := hall th (by simp)
            rw [hg] at hp'
            have hpp : p' = p := by
              have := (Option.some_inj.mp hp')
              exact (Option.some_inj.mp this).symm
            rw [hpp] at hr'
            exact absurd hr' hr

/-! ### The claims -/

/-- C1: after every successful insert, every successful erase, and every
rehash (with a positive new bucket count), for every non-empty bucket `i`
the anchor stores the node immediately preceding the bucket's first entry in
traversal order, and walking from the anchor's successor while the node's
cached index equals `i` visits exactly the entries whose key hashes to `i`,
as one contiguous run with no other bucket's entries interleaved. -/
theorem spec_c1 (hasher : K → Nat) (m : UMap K V) (hwf : WF hasher m) :
    (∀ (k : K) (v : V) (r : UMap K V × Nat), insert hasher m k v = .ok r →
      AnchorInvariant hasher r.1) ∧
    (∀ (k : K) (m' : UMap K V), erase hasher m k = .ok m' → AnchorInvariant hasher m') ∧
    (∀ n : Nat, 0 < n → AnchorInvariant hasher (rehash hasher m n)) :=
  ⟨fun _ _ _ h => wf_anchorInvariant hasher (insert_ok_spec hasher hwf h).1,
   fun _ _ h => wf_anchorInvariant hasher (erase_ok_wf hasher hwf h),
   fun _ hn => wf_anchorInvariant hasher (rehash_wf hasher hwf hn).1⟩

/-- Witness for C1 at a concrete two-entry map: the anchor invariant after a
third insertion and after an explicit rehash to 20 buckets. -/
theorem spec_c1_witness :
    WF hashNat mA ∧ AnchorInvariant hashNat (insD mA 5) ∧
    AnchorInvariant hashNat (rehash hashNat mA 20) := by
  refine ⟨wf_mA, ?_, (spec_c1 hashNat mA wf_mA).2.2 20 (by norm_num)⟩
  exact (spec_c1 hashNat mA wf_mA).1 5 0 (insD mA 5, mA.nextId) (by decide)

/-- C2: erasing an absent key. When the key's bucket holds other entries the
code throws `std::out_of_range` ("No such key") and the container is
untouched, as the claim and the function's own documumentation state; but when
the key's bucket is empty, `erase` dereferences the null anchor
`buckets[buck]->next_node` (line 406), which is undefined behaviour, not the
documented exception.  Key 3 hits the empty bucket 3 of a fresh 10-bucket
map; key 22 hits bucket 2 of `mA`, which holds keys 2 and 12 but not 22. -/
theorem spec_c2 :
    erase hashNat (mkUMap 10 : UMap Nat Nat) 3 = Res.ub ∧
    erase hashNat mA 22 = Res.exn (.outOfRange .noSuchKey) := by decide

/-- C5: inserting an already-present key throws `std::invalid_argument`
("Key repeat").  The check precedes node allocation, splicing and the size
bump, so the container is unchanged: the operation produces only the
exception and no new state. -/
theorem spec_c5 (hasher : K → Nat) {m : UMap K V} (hwf : WF hasher m) {k : K} (v : V)
    (hk : k ∈ keys m) :
    insert hasher m k v = .exn (.invalidArgument .keyRepeat) := by
  have hz : ¬ m.bucketsCount = 0 := by
    intro hz
    obtain ⟨n, hmem, -⟩ := List.mem_map.mp hk
    have hget : m.buckets.getD n.cached none = none := by
      rw [List.getD_eq_getElem?_getD, List.getElem?_eq_none (by rw [hwf.blen, hz]; omega)]
      rfl
    have hbo := hwf.table n.cached
    rw [hget] at hbo
    exact hbo n hmem rfl
  have hfb : findInBucket m (hasher k % m.bucketsCount) k = true :=
    (findInBucket_true_iff hasher hwf k).mpr hk
  rw [insert, hashIdx, if_neg hz]
  simp [hfb]

/-- Witness for C5: re-inserting key 2 of `mA`. -/
theorem spec_c5_witness :
    (2 : Nat) ∈ keys mA ∧
    insert hashNat mA 2 99 = .exn (.invalidArgument .keyRepeat) :=
  ⟨by decide, spec_c5 hashNat wf_mA 99 (by decide)⟩

/-- C7 (amended): on a zero-bucket container, insert and erase raise the
zero-bucket `std::invalid_argument` ("Impossible to find hash for zero-sized
map"); find, contains, at and index-access reach the same check inside
`noexcept` functions, so they terminate the process instead of raising a
catchable failure; and the zero-bucket state is reachable directly from the
constructor `Unordered_Map(0)`, not only from a moved-from object. -/
theorem spec_c7 :
    (∀ {K V : Type} [DecidableEq K] [DecidableEq V] [Inhabited V] (hasher : K → Nat)
      (m : UMap K V) (k : K) (v : V), m.bucketsCount = 0 →
      insert hasher m k v = .exn (.invalidArgument .impossibleHashZero) ∧
      erase hasher m k = .exn (.invalidArgument .impossibleHashZero) ∧
      contains hasher m k = .terminated ∧ find hasher m k = .terminated ∧
      atMap hasher m k = .terminated ∧ opIndex hasher m k = .terminated) ∧
    (∀ n : Nat, (mkUMap n : UMap Nat Nat).bucketsCount = n) := by
  constructor
  · intro K V _ _ _ hasher m k v h
    have hfn : findNode hasher m k = .terminated := by rw [findNode, hashIdx, if_pos h]
    refine ⟨?_, ?_, ?_, ?_, ?_, ?_⟩
    · rw [insert, hashIdx, if_pos h]
    · rw [erase, hashIdx, if_pos h]
    · rw [contains, hashIdx, if_pos h]
    · rw [find, hfn]
    · rw [atMap, hfn]
    · rw [opIndex, find, hfn]
  · intro n
    rfl

/-- Witness for C7 (amended) at the zero-bucket map built by the constructor. -/
theorem spec_c7_witness :
    (mkUMap 0 : UMap Nat Nat).bucketsCount = 0 ∧
    insert hashNat (mkUMap 0 : UMap Nat Nat) 7 7 =
      .exn (.invalidArgument .impossibleHashZero) ∧
    contains hashNat (mkUMap 0 : UMap Nat Nat) 7 = .terminated := by
  have h := spec_c7.1 hashNat (mkUMap 0 : UMap Nat Nat) 7 7 rfl
  exact ⟨rfl, h.1, h.2.2.1⟩

/-- C7 counterexample: `contains` on a zero-bucket map terminates the process
(the throwing `__hash` is called from the `noexcept` `contains`) instead of
raising a catchable `InvalidState` failure, and the zero-bucket state arises
directly from the constructor `Unordered_Map(0)`, with no move involved —
refuting both the "fails with InvalidState" part for the lookup operations
and the "only reachable after a move" part of the claim. -/
theorem spec_c7_counterexample :
    (mkUMap 0 : UMap Nat Nat).bucketsCount = 0 ∧
    contains hashNat (mkUMap 0 : UMap Nat Nat) 7 = .terminated := by decide

/-- C8: `reserve` with a target below the current bucket count and
`max_load_factor` with a non-positive argument throw `std::invalid_argument`;
both checks precede any mutation, so on failure only the exception is
produced and the container state is untouched. -/
theorem spec_c8 :
    (∀ {K V : Type} [DecidableEq K] [DecidableEq V] (hasher : K → Nat) (m : UMap K V)
      (n : Nat), n < m.bucketsCount →
      reserve hasher m n = .exn (.invalidArgument .newSizeLess)) ∧
    (∀ {K V : Type} [DecidableEq K] [DecidableEq V] (m : UMap K V) (f : Rat), f ≤ 0 →
      setMaxLoadFactor m f = .exn (.invalidArgument .mlfNonpos)) := by
  constructor
  · intro K V _ _ hasher m n h
    rw [reserve, if_pos h]
  · intro K V _ _ m f h
    rw [setMaxLoadFactor, if_pos h]

/-- Witness for C8 on a fresh 10-bucket map. -/
theorem spec_c8_witness :
    ((5 : Nat) < (mkUMap 10 : UMap Nat Nat).bucketsCount ∧
      reserve hashNat (mkUMap 10 : UMap Nat Nat) 5 =
        .exn (.invalidArgument .newSizeLess)) ∧
    ((0 : Rat) ≤ 0 ∧
      setMaxLoadFactor (mkUMap 10 : UMap Nat Nat) 0 =
        .exn (.invalidArgument .mlfNonpos)) :=
  ⟨⟨by decide, spec_c8.1 hashNat _ 5 (by decide)⟩,
   ⟨le_refl 0, spec_c8.2 _ 0 (le_refl 0)⟩⟩

/-- C9: `clear` never fails (it is a total function of the state), leaves
size 0 and an empty traversal (`begin() == end()`), keeps the bucket array
and the bucket count, is idempotent, and on an already-empty container it is
a no-op. -/
theorem spec_c9 (m : UMap K V) :
    (clear m).sz = 0 ∧ beginPtr (clear m) = endPtr (clear m) ∧
    (clear m).bucketsCount = m.bucketsCount ∧ clear (clear m) = clear m ∧
    (m.chain = [] → m.sz = 0 → clear m = m) := by
  refine ⟨rfl, rfl, rfl, rfl, ?_⟩
  intro h1 h2
  cases m with
  | mk chain buckets sz bc mlf nid =>
    simp only at h1 h2
    subst h1
    subst h2
    rfl

/-- Witness for C9 at the empty map, including the no-op case. -/
theorem spec_c9_witness :
    (clear (mkUMap 10 : UMap Nat Nat)).sz = 0 ∧
    clear (mkUMap 10 : UMap Nat Nat) = mkUMap 10 :=
  ⟨(spec_c9 (mkUMap 10 : UMap Nat Nat)).1,
   (spec_c9 (mkUMap 10 : UMap Nat Nat)).2.2.2.2 rfl rfl⟩

/-- C10: a successful insert returns an iterator to the just-inserted node
holding exactly the inserted key-value pair, also when the insertion
triggered an automatic rehash: rehashing re-links the existing nodes (same
identities) into the new bucket structure without reallocating them. -/
theorem spec_c10 (hasher : K → Nat) {m : UMap K V} (hwf : WF hasher m) {k : K} {v : V}
    {r : UMap K V × Nat} (h : insert hasher m k v = .ok r) :
    derefIter r.1 (Ptr.node r.2) = some (k, v) := by
  obtain ⟨hwf', hr2, ⟨nd, hmem, hid, hkey, hval⟩, -⟩ := insert_ok_spec hasher hwf h
  rw [hr2, derefIter, ← hid, find?_id_of_nodup hwf'.nodupIds hmem]
  simp [hkey, hval]

/-- Witness for C10: the tenth insertion into `m9` triggers the doubling
rehash (bucket count becomes 20), and the returned iterator still
dereferences to the inserted pair. -/
theorem spec_c10_witness :
    insert hashNat m9 9 0 = .ok mc10 ∧ mc10.1.bucketsCount = 20 ∧
    derefIter mc10.1 (Ptr.node mc10.2) = some (9, 0) := by
  refine ⟨by decide, by decide, ?_⟩
  exact spec_c10 hashNat wf_m9 (show insert hashNat m9 9 0 = .ok mc10 by decide)

theorem wf_mA2 : WF hashNat mA2 := wf_insD (wf_insD (wf_mk hashNat 10) 12) 2

/-- C3 counterexample: two maps with exactly the same keys (12 and 2, even in
the same traversal order) but different bucket counts (10 vs 4) compare
unequal under `operator==`: the comparison looks each key up in the other map
at `this`'s cached bucket index, which denotes a different bucket when the
bucket counts differ.  This refutes "returns true iff the same set of keys".
Moreover `operator==` is not failure-free even with equal bucket counts: with
equal sizes but different key sets (key 2 vs key 3, 10 buckets each) the
lookup dereferences the null anchor of the other map's empty bucket
(undefined behaviour) instead of returning false. -/
theorem spec_c3_counterexample :
    (keys mA = keys mB ∧ beqMap mA mB = Res.ok false) ∧
    beqMap (insD (mkUMap 10) 2) (insD (mkUMap 10) 3) = Res.ub := by decide

/-- C3 (amended): the value-independent key-set characterisation holds for
containers with equal bucket counts: for well-formed maps over the same hash
function and with the same bucket count, `operator==` returns true iff the
two maps hold exactly the same set of keys; stored values are never compared.
(With differing bucket counts equal key sets can compare unequal, per the
counterexample, and the comparison can dereference a null anchor when a key
of the left map hits an empty bucket of the right one, so it is also not
failure-free in general.) -/
theorem spec_c3 (hasher : K → Nat) {a b : UMap K V} (hwa : WF hasher a)
    (hwb : WF hasher b) (hcount : a.bucketsCount = b.bucketsCount) :
    beqMap a b = .ok true ↔ ∀ k : K, k ∈ keys a ↔ k ∈ keys b := by
  constructor
  · intro h
    have hsz : a.sz = b.sz := by
      by_contra hne
      rw [beqMap, if_pos hne] at h
      exact absurd h (by simp)
    rw [beqMap, if_neg (fun hc => hc hsz)] at h
    have hall := (eqLoop_ok_true_iff b a.chain).mp h
    have hsub : keys a ⊆ keys b := by
      intro k hk
      obtain ⟨th, hth, hthk⟩ := List.mem_map.mp hk
      obtain ⟨p, hp, hr⟩ := hall th hth
      obtain ⟨x, hx, hxk, -⟩ := runContains_mem hr
      have hxb : x ∈ b.chain := (suffixAfter_sublist b.chain p).subset hx
      rw [← hthk, ← hxk]
      exact List.mem_map.mpr ⟨x, hxb, rfl⟩
    have hlen : (keys b).length ≤ (keys a).length := by
      show (b.chain.map _).length ≤ (a.chain.map _).length
      rw [List.length_map, List.length_map, ← hwa.szlen, ← hwb.szlen, hsz]
    intro k
    exact ((List.subperm_of_subset hwa.nodupKeys hsub).perm_of_length_le hlen).mem_iff
  · intro hiff
    have hperm : (keys a).Perm (keys b) :=
      (List.perm_ext_iff_of_nodup hwa.nodupKeys hwb.nodupKeys).mpr hiff
    have hsz : a.sz = b.sz := by
      rw [hwa.szlen, hwb.szlen]
      have hh := hperm.length_eq
      simpa [keys] using hh
    rw [beqMap, if_neg (fun hc => hc hsz), eqLoop_ok_true_iff]
    intro th hth
    have hkb : th.key ∈ keys b := (hiff th.key).mp (List.mem_map.mpr ⟨th, hth, rfl⟩)
    obtain ⟨x, hxb, hxk⟩ := List.mem_map.mp hkb
    obtain ⟨p, pfx, run, suf, hgb, hchain, hanch, hrun0, hpfx, hrunq, hsufq, hxin, hsufx⟩ :=
      wf_bucket_decomp hasher hwb hxb
    have hthc : th.cached = x.cached := by
      rw [hwa.cachedEq th hth, hwb.cachedEq x hxb, hxk, hcount]
    refine ⟨p, ?_, ?_⟩
    · rw [hthc]
      exact get?_eq_some_of_getD hgb
    · rw [hthc, hsufx]
      exact runContains_of_mem hrunq hxin hxk
/-- Witness for C3 (amended): same key set in the same bucket count compares
equal. -/
theorem spec_c3_witness :
    (beqMap mA mA2 = .ok true ↔ ∀ k : Nat, k ∈ keys mA ↔ k ∈ keys mA2) ∧
    beqMap mA mA2 = .ok true :=
  ⟨spec_c3 hashNat wf_mA wf_mA2 (by decide), by decide⟩

/-- C4 counterexample: with maximum load factor 1/2, after the sixth
insertion into a 10-bucket map the real load factor is 6/10 > 1/2 and no
rehash has happened, because the trigger compares the integer quotient
6 / 10 = 0 against the load factor.  This refutes the claimed post-insertion
bound size()/bucket_count() <= max_load_factor(). -/
theorem spec_c4_counterexample :
    mC4.sz = 6 ∧ mC4.bucketsCount = 10 ∧ mC4.mlf = mkRat 1 2 ∧
    ¬ ((mC4.sz : Rat) / (mC4.bucketsCount : Rat) ≤ mC4.mlf) := by
  refine ⟨by decide, by decide, by decide, ?_⟩
  rw [show mC4.sz = 6 by decide, show mC4.bucketsCount = 10 by decide,
    show mC4.mlf = mkRat 1 2 by decide]
  rw [Rat.mkRat_eq_div]
  norm_num

/-- C4 (amended): the automatic rehash trigger compares the integer quotient
(size+1)/bucket_count with the load factor: a successful insertion doubles
the bucket count iff that quotient reaches max_load_factor, and leaves it
unchanged otherwise; the real-valued bound size() / bucket_count() ≤
max_load_factor() after insertion does hold when the load factor is 1 (the
default) and size ≤ bucket_count held before the insertion (but not for
fractional load factors); and the 11-key scenario holds: the bucket count
doubles to 20 and all 11 keys remain retrievable. -/
theorem spec_c4 :
    (∀ {K V : Type} [DecidableEq K] [DecidableEq V] (hasher : K → Nat) (m : UMap K V)
      (k : K) (v : V) (r : UMap K V × Nat), insert hasher m k v = .ok r →
      ((((m.sz + 1) / m.bucketsCount : Nat) : Rat) ≥ m.mlf ∧
        r.1.bucketsCount = m.bucketsCount * 2) ∨
      (¬ ((((m.sz + 1) / m.bucketsCount : Nat) : Rat) ≥ m.mlf) ∧
        r.1.bucketsCount = m.bucketsCount)) ∧
    (∀ {K V : Type} [DecidableEq K] [DecidableEq V] (hasher : K → Nat) (m : UMap K V)
      (k : K) (v : V) (r : UMap K V × Nat), m.mlf = 1 → m.sz ≤ m.bucketsCount →
      insert hasher m k v = .ok r →
      (r.1.sz : Rat) / (r.1.bucketsCount : Rat) ≤ r.1.mlf ∧
      r.1.sz ≤ r.1.bucketsCount) ∧
    (mC4s.bucketsCount = 20 ∧ mC4s.sz = 11 ∧
      ∀ k : Nat, k < 11 → contains hashNat mC4s k = .ok true) := by
  refine ⟨?_, ?_, by decide⟩
  · intro K V _ _ hasher m k v r h
    by_cases hz : m.bucketsCount = 0
    · rw [insert, hashIdx, if_pos hz] at h
      exact absurd h (by simp)
    by_cases hfb : findInBucket m (hasher k % m.bucketsCount) k = true
    · rw [insert, hashIdx, if_neg hz] at h
      simp only [hfb, if_true] at h
      exact absurd h (by simp)
    rw [insert_eq hasher m k v hz (Bool.not_eq_true _ ▸ hfb)] at h
    by_cases hcond : (((m.sz + 1) / m.bucketsCount : Nat) : Rat) ≥ m.mlf
    · rw [if_pos hcond] at h
      injection h with h2
      refine Or.inl ⟨hcond, ?_⟩
      rw [← h2]
      rfl
    · rw [if_neg hcond] at h
      injection h with h2
      refine Or.inr ⟨hcond, ?_⟩
      rw [← h2]
  · intro K V _ _ hasher m k v r hmlf hle h
    by_cases hz : m.bucketsCount = 0
    · rw [insert, hashIdx, if_pos hz] at h
      exact absurd h (by simp)
    have hcpos : 0 < m.bucketsCount := Nat.pos_of_ne_zero hz
    by_cases hfb : findInBucket m (hasher k % m.bucketsCount) k = true
    · rw [insert, hashIdx, if_neg hz] at h
      simp only [hfb, if_true] at h
      exact absurd h (by simp)
    rw [insert_eq hasher m k v hz (Bool.not_eq_true _ ▸ hfb)] at h
    by_cases hcond : (((m.sz + 1) / m.bucketsCount : Nat) : Rat) ≥ m.mlf
    · rw [if_pos hcond] at h
      injection h with h2
      have hnat : m.sz + 1 ≤ m.bucketsCount * 2 := by omega
      rw [← h2]
      refine ⟨?_, hnat⟩
      show ((m.sz + 1 : Nat) : Rat) / ((m.bucketsCount * 2 : Nat) : Rat) ≤ m.mlf
      rw [hmlf, div_le_one (by positivity)]
      exact_mod_cast hnat
    · rw [if_neg hcond] at h
      injection h with h2
      have hq : (m.sz + 1) / m.bucketsCount = 0 := by
        by_contra hq0
        refine hcond ?_
        rw [hmlf]
        have h1 : 1 ≤ (m.sz + 1) / m.bucketsCount := Nat.pos_of_ne_zero hq0
        exact_mod_cast h1
      have hlt : m.sz + 1 < m.bucketsCount := (Nat.div_eq_zero_iff hcpos).mp hq
      rw [← h2]
      refine ⟨?_, Nat.le_of_lt hlt⟩
      show ((m.sz + 1 : Nat) : Rat) / ((m.bucketsCount : Nat) : Rat) ≤ m.mlf
      rw [hmlf, div_le_one (by exact_mod_cast hcpos)]
      exact_mod_cast Nat.le_of_lt hlt

/-- Witness for C4 (amended): the tenth insertion into `m9` reaches integer
quotient 10/10 = 1 ≥ 1 and doubles the bucket count; the load-factor bound
holds after it. -/
theorem spec_c4_witness :
    (((((m9.sz + 1) / m9.bucketsCount : Nat) : Rat) ≥ m9.mlf ∧
        mc10.1.bucketsCount = m9.bucketsCount * 2) ∨
      (¬ ((((m9.sz + 1) / m9.bucketsCount : Nat) : Rat) ≥ m9.mlf) ∧
        mc10.1.bucketsCount = m9.bucketsCount)) ∧
    ((mc10.1.sz : Rat) / (mc10.1.bucketsCount : Rat) ≤ mc10.1.mlf ∧
      mc10.1.sz ≤ mc10.1.bucketsCount) := by
  constructor
  · exact spec_c4.1 hashNat m9 9 0 mc10 (by decide)
  · exact spec_c4.2.1 hashNat m9 9 0 mc10 (by decide) (by decide) (by decide)

/-- C6: on a well-formed container with a positive bucket count, `find` never
fails: for every currently stored pair (k, v) it returns an iterator whose
dereference yields exactly (k, v) — since this holds in every well-formed
state still containing the pair, the round trip is valid until the key is
erased or its value reassigned — and for every absent key it returns the
end-marker. -/
theorem spec_c6 (hasher : K → Nat) {m : UMap K V} (hwf : WF hasher m)
    (hpos : 0 < m.bucketsCount) :
    (∀ (k : K) (v : V), (k, v) ∈ entries m →
      ∃ j, find hasher m k = .ok (Ptr.node j) ∧
        derefIter m (Ptr.node j) = some (k, v)) ∧
    (∀ k : K, k ∉ keys m → find hasher m k = .ok Ptr.elist) := by
  have hz : ¬ m.bucketsCount = 0 := Nat.pos_iff_ne_zero.mp hpos
  constructor
  · intro k v hkv
    obtain ⟨n, hmem, hpair⟩ := List.mem_map.mp hkv
    have hk : n.key = k := congrArg Prod.fst hpair
    have hv : n.val = v := congrArg Prod.snd hpair
    have hc : n.cached = hasher k % m.bucketsCount := by rw [hwf.cachedEq n hmem, hk]
    obtain ⟨p, pfx, run, suf, hgb, hchain, hanch, hrun0, hpfx, hrunq, hsufq, hnin, hsufx⟩ :=
      wf_bucket_decomp hasher hwf hmem
    refine ⟨n.id, ?_, ?_⟩
    · rw [find, findNode, hashIdx, if_neg hz]
      have hgb' : m.buckets.getD (hasher k % m.bucketsCount) none = some p := by
        rw [← hc]
        exact hgb
      simp only [hgb']
      rw [← hc, hsufx,
        runFindPtr_of_mem hrunq hnin hk
          (fun x hx hxk => key_unique hwf.nodupKeys
            (by rw [hchain]; simp [hx]) hmem (by rw [hxk, hk]))]
    · rw [derefIter, find?_id_of_nodup hwf.nodupIds hmem]
      simp [hk, hv]
  · intro k hk
    rw [find, findNode, hashIdx, if_neg hz]
    cases hgb : m.buckets.getD (hasher k % m.bucketsCount) none with
    | none => simp only [hgb]
    | some p =>
      have hb := hwf.table (hasher k % m.bucketsCount)
      rw [hgb] at hb
      simp only [BucketOk] at hb
      obtain ⟨pfx, run, suf, hchain, hanch, hrun0, hpfx, hrunq, hsufq⟩ := hb
      have hchainA : m.chain = pfx ++ (run ++ suf) := by rw [hchain, List.append_assoc]
      have hsufx : suffixAfter m.chain p = run ++ suf := by
        rw [hchainA]
        exact suffixAfter_anchorAt pfx (run ++ suf) hanch
          (by rw [← hchainA]; exact hwf.nodupIds)
      simp only [hgb]
      rw [hsufx, runFindPtr_not_mem hrunq
        (fun x hx hxk => hk (List.mem_map.mpr ⟨x, by rw [hchain]; simp [hx], hxk⟩))
        (fun s hs => hsufq s (List.mem_of_mem_head? hs))]

/-- Witness for C6 at `mA`: find key 2 (present with value 0) and key 7
(absent, empty bucket 7). -/
theorem spec_c6_witness :
    (((2 : Nat), (0 : Nat)) ∈ entries mA ∧
      ∃ j, find hashNat mA 2 = .ok (Ptr.node j) ∧
        derefIter mA (Ptr.node j) = some (2, 0)) ∧
    ((7 : Nat) ∉ keys mA ∧ find hashNat mA 7 = .ok Ptr.elist) :=
  ⟨⟨by decide, (spec_c6 hashNat wf_mA (by decide)).1 2 0 (by decide)⟩,
   ⟨by decide, (spec_c6 hashNat wf_mA (by decide)).2 7 (by decide)⟩⟩

end UM
